import Mathlib

/-!
Verification of the MinMsgr encryption core against its specification.

The development shallowly embeds the Go sources of the repository:
the RC6 block cipher (`src/unnamed/part_005`, package `encryption`),
the padding schemes (`server/internal/pkg/encryption/padding/padding.go`),
the modes of operation (`server/internal/pkg/encryption/modes/modes.go`),
and the Diffie-Hellman key agreement
(`server/internal/pkg/crypto/diffie_hellman.go`).

Machine words (`uint32`) are natural numbers kept below `2^32`, with every
wrapping operation made explicit; byte strings (`[]byte`) are lists of
naturals whose elements are below `256`; Go functions that can fail return
`Except String`.
-/

deriving instance DecidableEq for Except

namespace MinMsgr

/-- The modulus of Go `uint32` arithmetic, `2^32`. -/
def M32 : Nat := 4294967296

theorem M32_eq_pow : M32 = 2 ^ 32 := by norm_num [M32]

/-- Wrapping 32-bit addition (Go `uint32` `+`). -/
def add32 (x y : Nat) : Nat := (x + y) % M32

/-- Wrapping 32-bit subtraction (Go `uint32` `-`). -/
def sub32 (x y : Nat) : Nat := (x + (M32 - y % M32)) % M32

/-- Wrapping 32-bit multiplication (Go `uint32` `*`). -/
def mul32 (x y : Nat) : Nat := (x * y) % M32

/-- `rotl32` from the source: `(x << n) | (x >> (32 - n))` on `uint32`. -/
def rotl32 (x n : Nat) : Nat := ((x <<< n) % M32) ||| (x >>> (32 - n))

/-- `rotr32` from the source: `(x >> n) | (x << (32 - n))` on `uint32`. -/
def rotr32 (x n : Nat) : Nat := (x >>> n) ||| ((x <<< (32 - n)) % M32)

theorem add32_lt (x y : Nat) : add32 x y < M32 := by
  have : 0 < M32 := by norm_num [M32]
  exact Nat.mod_lt _ this

theorem sub32_lt (x y : Nat) : sub32 x y < M32 := by
  have : 0 < M32 := by norm_num [M32]
  exact Nat.mod_lt _ this

theorem mul32_lt (x y : Nat) : mul32 x y < M32 := by
  have : 0 < M32 := by norm_num [M32]
  exact Nat.mod_lt _ this

theorem rotl32_lt {x : Nat} (hx : x < M32) (n : Nat) : rotl32 x n < M32 := by
  rw [rotl32, M32_eq_pow]
  apply Nat.or_lt_two_pow
  · rw [← M32_eq_pow]
    exact Nat.mod_lt _ (by norm_num [M32])
  · calc x >>> (32 - n) ≤ x := by
          rw [Nat.shiftRight_eq_div_pow]; exact Nat.div_le_self _ _
      _ < 2 ^ 32 := by rw [← M32_eq_pow]; exact hx

theorem rotr32_lt {x : Nat} (hx : x < M32) (n : Nat) : rotr32 x n < M32 := by
  rw [rotr32, M32_eq_pow]
  apply Nat.or_lt_two_pow
  · calc x >>> n ≤ x := by
          rw [Nat.shiftRight_eq_div_pow]; exact Nat.div_le_self _ _
      _ < 2 ^ 32 := by rw [← M32_eq_pow]; exact hx
  · rw [← M32_eq_pow]
    exact Nat.mod_lt _ (by norm_num [M32])

/-- Closed form of the left rotation on an in-range word. -/
theorem rotl32_eq {x : Nat} (hx : x < M32) {n : Nat} (hn : n ≤ 32) :
    rotl32 x n = 2 ^ n * (x % 2 ^ (32 - n)) + x / 2 ^ (32 - n) := by
  have hsplit : 2 ^ (32 - n) * 2 ^ n = 2 ^ 32 := by
    rw [← pow_add]; congr 1; omega
  have hdivlt : x / 2 ^ (32 - n) < 2 ^ n := by
    apply Nat.div_lt_of_lt_mul
    rw [hsplit, ← M32_eq_pow]; exact hx
  have hmodlt : x % 2 ^ (32 - n) < 2 ^ (32 - n) := Nat.mod_lt _ (Nat.two_pow_pos _)
  have hshift : (x <<< n) % M32 = 2 ^ n * (x % 2 ^ (32 - n)) := by
    rw [Nat.shiftLeft_eq, M32_eq_pow]
    conv_lhs => rw [← Nat.div_add_mod x (2 ^ (32 - n))]
    rw [Nat.add_mul, Nat.mul_assoc,
      Nat.mul_left_comm (2 ^ (32 - n)) (x / 2 ^ (32 - n)) (2 ^ n), hsplit]
    rw [Nat.mul_comm (x / 2 ^ (32 - n)) (2 ^ 32), Nat.mul_add_mod]
    rw [Nat.mod_eq_of_lt, Nat.mul_comm]
    calc x % 2 ^ (32 - n) * 2 ^ n < 2 ^ (32 - n) * 2 ^ n :=
          (Nat.mul_lt_mul_right (Nat.two_pow_pos _)).mpr hmodlt
      _ = 2 ^ 32 := hsplit
  rw [rotl32, hshift, Nat.shiftRight_eq_div_pow]
  exact (Nat.mul_add_lt_is_or hdivlt _).symm

/-- Closed form of the right rotation on an in-range word. -/
theorem rotr32_eq {x : Nat} (hx : x < M32) {n : Nat} (hn : n ≤ 32) :
    rotr32 x n = 2 ^ (32 - n) * (x % 2 ^ n) + x / 2 ^ n := by
  have hsplit : 2 ^ n * 2 ^ (32 - n) = 2 ^ 32 := by
    rw [← pow_add]; congr 1; omega
  have hdivlt : x / 2 ^ n < 2 ^ (32 - n) := by
    apply Nat.div_lt_of_lt_mul
    rw [hsplit, ← M32_eq_pow]; exact hx
  have hmodlt : x % 2 ^ n < 2 ^ n := Nat.mod_lt _ (Nat.two_pow_pos _)
  have hshift : (x <<< (32 - n)) % M32 = 2 ^ (32 - n) * (x % 2 ^ n) := by
    rw [Nat.shiftLeft_eq, M32_eq_pow]
    conv_lhs => rw [← Nat.div_add_mod x (2 ^ n)]
    rw [Nat.add_mul, Nat.mul_assoc,
      Nat.mul_left_comm (2 ^ n) (x / 2 ^ n) (2 ^ (32 - n)), hsplit]
    rw [Nat.mul_comm (x / 2 ^ n) (2 ^ 32), Nat.mul_add_mod]
    rw [Nat.mod_eq_of_lt, Nat.mul_comm]
    calc x % 2 ^ n * 2 ^ (32 - n) < 2 ^ n * 2 ^ (32 - n) :=
          (Nat.mul_lt_mul_right (Nat.two_pow_pos _)).mpr hmodlt
      _ = 2 ^ 32 := hsplit
  rw [rotr32, hshift, Nat.shiftRight_eq_div_pow]
  rw [Nat.or_comm]
  exact (Nat.mul_add_lt_is_or hdivlt _).symm

/-- Right rotation undoes left rotation on in-range words. -/
theorem rotr32_rotl32 {x : Nat} (hx : x < M32) {n : Nat} (hn : n ≤ 32) :
    rotr32 (rotl32 x n) n = x := by
  have hy : rotl32 x n < M32 := rotl32_lt hx n
  rw [rotl32_eq hx hn] at hy ⊢
  rw [rotr32_eq hy hn]
  have hdivlt : x / 2 ^ (32 - n) < 2 ^ n := by
    apply Nat.div_lt_of_lt_mul
    rw [← pow_add]
    have : 32 - n + n = 32 := by omega
    rw [this, ← M32_eq_pow]; exact hx
  have hmod : (2 ^ n * (x % 2 ^ (32 - n)) + x / 2 ^ (32 - n)) % 2 ^ n
      = x / 2 ^ (32 - n) := by
    rw [Nat.mul_add_mod, Nat.mod_eq_of_lt hdivlt]
  have hdiv : (2 ^ n * (x % 2 ^ (32 - n)) + x / 2 ^ (32 - n)) / 2 ^ n
      = x % 2 ^ (32 - n) := by
    rw [Nat.mul_add_div (Nat.two_pow_pos _), Nat.div_eq_of_lt hdivlt, Nat.add_zero]
  rw [hmod, hdiv, Nat.div_add_mod]

/-- Left rotation undoes right rotation on in-range words. -/
theorem rotl32_rotr32 {x : Nat} (hx : x < M32) {n : Nat} (hn : n ≤ 32) :
    rotl32 (rotr32 x n) n = x := by
  have hy : rotr32 x n < M32 := rotr32_lt hx n
  rw [rotr32_eq hx hn] at hy ⊢
  rw [rotl32_eq hy hn]
  have hdivlt : x / 2 ^ n < 2 ^ (32 - n) := by
    apply Nat.div_lt_of_lt_mul
    rw [← pow_add]
    have : n + (32 - n) = 32 := by omega
    rw [this, ← M32_eq_pow]; exact hx
  have hmod : (2 ^ (32 - n) * (x % 2 ^ n) + x / 2 ^ n) % 2 ^ (32 - n)
      = x / 2 ^ n := by
    rw [Nat.mul_add_mod, Nat.mod_eq_of_lt hdivlt]
  have hdiv : (2 ^ (32 - n) * (x % 2 ^ n) + x / 2 ^ n) / 2 ^ (32 - n)
      = x % 2 ^ n := by
    rw [Nat.mul_add_div (Nat.two_pow_pos _), Nat.div_eq_of_lt hdivlt, Nat.add_zero]
  rw [hmod, hdiv, Nat.div_add_mod]

/-- Wrapping subtraction undoes wrapping addition on an in-range word. -/
theorem sub32_add32 {x : Nat} (hx : x < M32) (y : Nat) :
    sub32 (add32 x y) y = x := by
  simp only [add32, sub32, M32] at hx ⊢
  omega

/-- Wrapping addition undoes wrapping subtraction on an in-range word. -/
theorem add32_sub32 {x : Nat} (hx : x < M32) (y : Nat) :
    add32 (sub32 x y) y = x := by
  simp only [add32, sub32, M32] at hx ⊢
  omega

theorem xor32_lt {x y : Nat} (hx : x < M32) (hy : y < M32) : x ^^^ y < M32 := by
  rw [M32_eq_pow] at hx hy ⊢
  exact Nat.xor_lt_two_pow hx hy

/-- Every element of a Go `[]byte` is below 256. -/
def allBytes (l : List Nat) : Prop := ∀ x ∈ l, x < 256

instance (l : List Nat) : Decidable (allBytes l) := List.decidableBAll _ l

/-- `binary.LittleEndian.Uint32`: four bytes to a little-endian word. -/
def leUint32 (b0 b1 b2 b3 : Nat) : Nat :=
  b0 + 256 * b1 + 65536 * b2 + 16777216 * b3

/-- `binary.LittleEndian.PutUint32`: a word to four little-endian bytes. -/
def lePutUint32 (w : Nat) : List Nat :=
  [w % 256, w / 256 % 256, w / 65536 % 256, w / 16777216 % 256]

theorem leUint32_lt {b0 b1 b2 b3 : Nat} (h0 : b0 < 256) (h1 : b1 < 256)
    (h2 : b2 < 256) (h3 : b3 < 256) : leUint32 b0 b1 b2 b3 < M32 := by
  simp only [leUint32, M32]; omega

theorem lePutUint32_leUint32 {b0 b1 b2 b3 : Nat} (h0 : b0 < 256) (h1 : b1 < 256)
    (h2 : b2 < 256) (h3 : b3 < 256) :
    lePutUint32 (leUint32 b0 b1 b2 b3) = [b0, b1, b2, b3] := by
  simp only [leUint32, lePutUint32, List.cons.injEq, and_true]
  refine ⟨?_, ?_, ?_, ?_⟩ <;> omega

theorem leUint32_lePutUint32 {w : Nat} (hw : w < M32) :
    leUint32 (w % 256) (w / 256 % 256) (w / 65536 % 256) (w / 16777216 % 256) = w := by
  simp only [leUint32, M32] at hw ⊢; omega

theorem allBytes_lePutUint32 (w : Nat) : allBytes (lePutUint32 w) := by
  intro x hx
  simp only [lePutUint32, List.mem_cons, List.not_mem_nil, or_false] at hx
  rcases hx with h | h | h | h <;> subst h <;> omega

/-- The `RC6` struct of `cipher.go`: round-key table `s`, word size `w`
(always 32), round count `r` (always 20). -/
structure RC6 where
  s : List Nat
  w : Nat
  r : Nat
deriving DecidableEq

/-- `RC6BlockSize = 16` from `cipher.go`. -/
def RC6BlockSize : Nat := 16

/-- `RC6KeySize = 32` from the RC6 source file. -/
def RC6KeySize : Nat := 32

/-- The `L` array built by `expandKey`: `c = (len(key)+3)/4` words, filled by
`L[i/4] |= uint32(key[i]) << ((i%4)*8)` for each key byte index `i`. -/
def keyToL (key : List Nat) : List Nat :=
  (List.range key.length).foldl
    (fun L i => L.set (i / 4) (L.getD (i / 4) 0 ||| ((key.getD i 0 <<< ((i % 4) * 8)) % M32)))
    (List.replicate ((key.length + 3) / 4) 0)

/-- The initial round-key values of `expandKey`: `s[0] = P32 = 0xB7E15163` and
`s[i] = s[i-1] + Q32` with `Q32 = 0x9E3779B9`, written here as a recurrence. -/
def sInitF : Nat → Nat
  | 0 => 0xB7E15163
  | i + 1 => add32 (sInitF i) 0x9E3779B9

/-- The `s` table right after the magic-constant loop of `expandKey`. -/
def sInit : List Nat := (List.range 44).map sInitF

/-- One iteration of the key-dependent mixing loop of `expandKey`:
`a = s[i] = rotl32(s[i]+a+b, 3); b = L[j] = rotl32(L[j]+a+b, (a+b)%32)`,
with `i` advancing mod 44 and `j` mod `c`. -/
def mixStep (c : Nat) :
    List Nat × List Nat × Nat × Nat × Nat × Nat →
    List Nat × List Nat × Nat × Nat × Nat × Nat
  | (s, L, a, b, i, j) =>
    let sv := rotl32 (add32 (add32 (s.getD i 0) a) b) 3
    let lv := rotl32 (add32 (add32 (L.getD j 0) sv) b) (add32 sv b % 32)
    (s.set i sv, L.set j lv, sv, lv, (i + 1) % 44, (j + 1) % c)

/-- `expandKey` from the RC6 source: build `L`, initialise `s` with the magic
constants, then run the mixing loop `3*44` times starting from
`a = b = 0`, `i = j = 0`. -/
def expandKey (key : List Nat) : List Nat :=
  (((mixStep ((key.length + 3) / 4))^[3 * 44]) (sInit, keyToL key, 0, 0, 0, 0)).1

/-- `NewRC6`: reject keys shorter than 16 or longer than 32 bytes, otherwise
build the cipher with `w = 32`, `r = 20` and the expanded key schedule. -/
def NewRC6 (key : List Nat) : Except String RC6 :=
  if key.length < 16 ∨ key.length > 32 then
    Except.error "RC6 key must be between 16 and 32 bytes"
  else
    Except.ok { s := expandKey key, w := 32, r := 20 }

/-- The body of round `i` of `RC6.Encrypt`:
`t = rotl32(b*(2b+1), 5); u = rotl32(d*(2d+1), 5);
a = rotl32(a^t, u%32) + s[2i]; c = rotl32(c^u, t%32) + s[2i+1]`,
followed by the rotation `(a,b,c,d) = (b,c,d,a)`. -/
def rc6EncRound (s : List Nat) (i : Nat) :
    Nat × Nat × Nat × Nat → Nat × Nat × Nat × Nat
  | (a, b, c, d) =>
    let t := rotl32 (mul32 b (add32 (mul32 2 b) 1)) 5
    let u := rotl32 (mul32 d (add32 (mul32 2 d) 1)) 5
    (b, add32 (rotl32 (c ^^^ u) (t % 32)) (s.getD (2 * i + 1) 0), d,
      add32 (rotl32 (a ^^^ t) (u % 32)) (s.getD (2 * i) 0))

/-- The body of round `i` of `RC6.Decrypt`: first the rotation
`(a,b,c,d) = (d,a,b,c)`, then
`u = rotl32(d*(2d+1), 5); t = rotl32(b*(2b+1), 5);
c = rotr32(c - s[2i+1], t%32) ^ u; a = rotr32(a - s[2i], u%32) ^ t`. -/
def rc6DecRound (s : List Nat) (i : Nat) :
    Nat × Nat × Nat × Nat → Nat × Nat × Nat × Nat
  | (a, b, c, d) =>
    let u := rotl32 (mul32 c (add32 (mul32 2 c) 1)) 5
    let t := rotl32 (mul32 a (add32 (mul32 2 a) 1)) 5
    (rotr32 (sub32 d (s.getD (2 * i) 0)) (u % 32) ^^^ t, a,
      rotr32 (sub32 b (s.getD (2 * i + 1) 0)) (t % 32) ^^^ u, c)

/-- The word-level body of `RC6.Encrypt`: pre-whitening with `s[0]`, `s[1]`,
rounds `1..r`, post-whitening with `s[2r+2]`, `s[2r+3]`. -/
def rc6EncryptWords (s : List Nat) (r : Nat) (st : Nat × Nat × Nat × Nat) :
    Nat × Nat × Nat × Nat :=
  let st1 := (st.1, add32 st.2.1 (s.getD 0 0), st.2.2.1, add32 st.2.2.2 (s.getD 1 0))
  let st2 := (List.range r).foldl (fun q k => rc6EncRound s (k + 1) q) st1
  (add32 st2.1 (s.getD (2 * r + 2) 0), st2.2.1,
    add32 st2.2.2.1 (s.getD (2 * r + 3) 0), st2.2.2.2)

/-- The word-level body of `RC6.Decrypt`: undo the post-whitening, run the
rounds from `r` down to `1`, undo the pre-whitening. -/
def rc6DecryptWords (s : List Nat) (r : Nat) (st : Nat × Nat × Nat × Nat) :
    Nat × Nat × Nat × Nat :=
  let st1 := (sub32 st.1 (s.getD (2 * r + 2) 0), st.2.1,
    sub32 st.2.2.1 (s.getD (2 * r + 3) 0), st.2.2.2)
  let st2 := (List.range r).reverse.foldl (fun q k => rc6DecRound s (k + 1) q) st1
  (st2.1, sub32 st2.2.1 (s.getD 0 0), st2.2.2.1, sub32 st2.2.2.2 (s.getD 1 0))

/-- `RC6.Encrypt` on the bytes of one block: read four little-endian words,
run the word-level transform, write four little-endian words. -/
def rc6EncryptBlock (s : List Nat) (r : Nat) (block : List Nat) : List Nat :=
  let q := rc6EncryptWords s r
    (leUint32 (block.getD 0 0) (block.getD 1 0) (block.getD 2 0) (block.getD 3 0),
     leUint32 (block.getD 4 0) (block.getD 5 0) (block.getD 6 0) (block.getD 7 0),
     leUint32 (block.getD 8 0) (block.getD 9 0) (block.getD 10 0) (block.getD 11 0),
     leUint32 (block.getD 12 0) (block.getD 13 0) (block.getD 14 0) (block.getD 15 0))
  lePutUint32 q.1 ++ lePutUint32 q.2.1 ++ lePutUint32 q.2.2.1 ++ lePutUint32 q.2.2.2

/-- `RC6.Decrypt` on the bytes of one block. -/
def rc6DecryptBlock (s : List Nat) (r : Nat) (block : List Nat) : List Nat :=
  let q := rc6DecryptWords s r
    (leUint32 (block.getD 0 0) (block.getD 1 0) (block.getD 2 0) (block.getD 3 0),
     leUint32 (block.getD 4 0) (block.getD 5 0) (block.getD 6 0) (block.getD 7 0),
     leUint32 (block.getD 8 0) (block.getD 9 0) (block.getD 10 0) (block.getD 11 0),
     leUint32 (block.getD 12 0) (block.getD 13 0) (block.getD 14 0) (block.getD 15 0))
  lePutUint32 q.1 ++ lePutUint32 q.2.1 ++ lePutUint32 q.2.2.1 ++ lePutUint32 q.2.2.2

/-- `RC6.Encrypt`: length check, then the block transform.  The `key`
parameter is received but never consulted, exactly as in the source. -/
def RC6.Encrypt (r : RC6) (key plaintext : List Nat) : Except String (List Nat) :=
  if plaintext.length ≠ RC6BlockSize then
    Except.error "plaintext must be 16 bytes"
  else
    Except.ok (rc6EncryptBlock r.s r.r plaintext)

/-- `RC6.Decrypt`: length check, then the block transform.  The `key`
parameter is received but never consulted, exactly as in the source. -/
def RC6.Decrypt (r : RC6) (key ciphertext : List Nat) : Except String (List Nat) :=
  if ciphertext.length ≠ RC6BlockSize then
    Except.error "ciphertext must be 16 bytes"
  else
    Except.ok (rc6DecryptBlock r.s r.r ciphertext)

/-- All four state words of the RC6 round function are in range. -/
def word4Lt (st : Nat × Nat × Nat × Nat) : Prop :=
  st.1 < M32 ∧ st.2.1 < M32 ∧ st.2.2.1 < M32 ∧ st.2.2.2 < M32

theorem rc6EncRound_word4Lt (s : List Nat) (i : Nat) {st : Nat × Nat × Nat × Nat}
    (hst : word4Lt st) : word4Lt (rc6EncRound s i st) := by
  obtain ⟨a, b, c, d⟩ := st
  exact ⟨hst.2.1, add32_lt _ _, hst.2.2.2, add32_lt _ _⟩

theorem rc6DecRound_word4Lt (s : List Nat) (i : Nat) {st : Nat × Nat × Nat × Nat}
    (hst : word4Lt st) : word4Lt (rc6DecRound s i st) := by
  obtain ⟨a, b, c, d⟩ := st
  refine ⟨xor32_lt (rotr32_lt (sub32_lt _ _) _) (rotl32_lt (mul32_lt _ _) _), hst.1,
    xor32_lt (rotr32_lt (sub32_lt _ _) _) (rotl32_lt (mul32_lt _ _) _), hst.2.2.1⟩

theorem foldl_rc6EncRound_word4Lt (s : List Nat) (l : List Nat)
    {st : Nat × Nat × Nat × Nat} (hst : word4Lt st) :
    word4Lt (l.foldl (fun q k => rc6EncRound s (k + 1) q) st) := by
  induction l generalizing st with
  | nil => exact hst
  | cons x xs ih => exact ih (rc6EncRound_word4Lt s (x + 1) hst)

theorem foldl_rc6DecRound_word4Lt (s : List Nat) (l : List Nat)
    {st : Nat × Nat × Nat × Nat} (hst : word4Lt st) :
    word4Lt (l.foldl (fun q k => rc6DecRound s (k + 1) q) st) := by
  induction l generalizing st with
  | nil => exact hst
  | cons x xs ih => exact ih (rc6DecRound_word4Lt s (x + 1) hst)

theorem rc6DecRound_rc6EncRound (s : List Nat) (i : Nat)
    {st : Nat × Nat × Nat × Nat} (hst : word4Lt st) :
    rc6DecRound s i (rc6EncRound s i st) = st := by
  obtain ⟨a, b, c, d⟩ := st
  obtain ⟨ha, hb, hc, hd⟩ := hst
  have hT : rotl32 (mul32 b (add32 (mul32 2 b) 1)) 5 < M32 := rotl32_lt (mul32_lt _ _) _
  have hU : rotl32 (mul32 d (add32 (mul32 2 d) 1)) 5 < M32 := rotl32_lt (mul32_lt _ _) _
  have h32 : (0 : Nat) < 32 := by norm_num
  simp only [rc6EncRound, rc6DecRound]
  rw [sub32_add32 (rotl32_lt (xor32_lt ha hT) _),
    sub32_add32 (rotl32_lt (xor32_lt hc hU) _),
    rotr32_rotl32 (xor32_lt ha hT) (Nat.le_of_lt (Nat.mod_lt _ h32)),
    rotr32_rotl32 (xor32_lt hc hU) (Nat.le_of_lt (Nat.mod_lt _ h32)),
    Nat.xor_cancel_right, Nat.xor_cancel_right]

theorem rc6EncRound_rc6DecRound (s : List Nat) (i : Nat)
    {st : Nat × Nat × Nat × Nat} (hst : word4Lt st) :
    rc6EncRound s i (rc6DecRound s i st) = st := by
  obtain ⟨a, b, c, d⟩ := st
  obtain ⟨ha, hb, hc, hd⟩ := hst
  have h32 : (0 : Nat) < 32 := by norm_num
  simp only [rc6EncRound, rc6DecRound]
  rw [Nat.xor_cancel_right, Nat.xor_cancel_right,
    rotl32_rotr32 (sub32_lt _ _) (Nat.le_of_lt (Nat.mod_lt _ h32)),
    rotl32_rotr32 (sub32_lt _ _) (Nat.le_of_lt (Nat.mod_lt _ h32)),
    add32_sub32 hb _, add32_sub32 hd _]

theorem foldl_rc6DecRound_rc6EncRound (s : List Nat) (l : List Nat)
    {st : Nat × Nat × Nat × Nat} (hst : word4Lt st) :
    l.reverse.foldl (fun q k => rc6DecRound s (k + 1) q)
      (l.foldl (fun q k => rc6EncRound s (k + 1) q) st) = st := by
  induction l using List.reverseRecOn generalizing st with
  | nil => rfl
  | append_singleton xs x ih =>
    rw [List.foldl_append, List.reverse_append, List.reverse_singleton,
      List.singleton_append, List.foldl_cons]
    simp only [List.foldl_cons, List.foldl_nil]
    rw [rc6DecRound_rc6EncRound s (x + 1) (foldl_rc6EncRound_word4Lt s xs hst)]
    exact ih hst

theorem foldl_rc6EncRound_rc6DecRound (s : List Nat) (l : List Nat)
    {st : Nat × Nat × Nat × Nat} (hst : word4Lt st) :
    l.foldl (fun q k => rc6EncRound s (k + 1) q)
      (l.reverse.foldl (fun q k => rc6DecRound s (k + 1) q) st) = st := by
  induction l using List.reverseRecOn generalizing st with
  | nil => rfl
  | append_singleton xs x ih =>
    rw [List.reverse_append, List.reverse_singleton, List.singleton_append,
      List.foldl_cons, List.foldl_append]
    simp only [List.foldl_cons, List.foldl_nil]
    rw [ih (rc6DecRound_word4Lt s (x + 1) hst)]
    exact rc6EncRound_rc6DecRound s (x + 1) hst

theorem rc6EncryptWords_word4Lt (s : List Nat) (r : Nat)
    {st : Nat × Nat × Nat × Nat} (hst : word4Lt st) :
    word4Lt (rc6EncryptWords s r st) := by
  obtain ⟨a, b, c, d⟩ := st
  have h1 : word4Lt (a, add32 b (s.getD 0 0), c, add32 d (s.getD 1 0)) :=
    ⟨hst.1, add32_lt _ _, hst.2.2.1, add32_lt _ _⟩
  have h2 := foldl_rc6EncRound_word4Lt s (List.range r) h1
  exact ⟨add32_lt _ _, h2.2.1, add32_lt _ _, h2.2.2.2⟩

theorem rc6DecryptWords_word4Lt (s : List Nat) (r : Nat)
    {st : Nat × Nat × Nat × Nat} (hst : word4Lt st) :
    word4Lt (rc6DecryptWords s r st) := by
  obtain ⟨a, b, c, d⟩ := st
  have h1 : word4Lt (sub32 a (s.getD (2 * r + 2) 0), b,
      sub32 c (s.getD (2 * r + 3) 0), d) :=
    ⟨sub32_lt _ _, hst.2.1, sub32_lt _ _, hst.2.2.2⟩
  have h2 := foldl_rc6DecRound_word4Lt s (List.range r).reverse h1
  exact ⟨h2.1, sub32_lt _ _, h2.2.2.1, sub32_lt _ _⟩

/-- The word-level RC6 decryption inverts the word-level encryption for every
round-key table, every round count and every in-range state. -/
theorem rc6DecryptWords_rc6EncryptWords (s : List Nat) (r : Nat)
    {st : Nat × Nat × Nat × Nat} (hst : word4Lt st) :
    rc6DecryptWords s r (rc6EncryptWords s r st) = st := by
  obtain ⟨a, b, c, d⟩ := st
  obtain ⟨ha, hb, hc, hd⟩ := hst
  have h1 : word4Lt (a, add32 b (s.getD 0 0), c, add32 d (s.getD 1 0)) :=
    ⟨ha, add32_lt _ _, hc, add32_lt _ _⟩
  have h2 := foldl_rc6EncRound_word4Lt s (List.range r) h1
  simp only [rc6EncryptWords, rc6DecryptWords]
  rw [sub32_add32 h2.1 _, sub32_add32 h2.2.2.1 _]
  have h3 : (List.range r).reverse.foldl (fun q k => rc6DecRound s (k + 1) q)
      (((List.range r).foldl (fun q k => rc6EncRound s (k + 1) q)
        (a, add32 b (s.getD 0 0), c, add32 d (s.getD 1 0))).1,
       ((List.range r).foldl (fun q k => rc6EncRound s (k + 1) q)
        (a, add32 b (s.getD 0 0), c, add32 d (s.getD 1 0))).2.1,
       ((List.range r).foldl (fun q k => rc6EncRound s (k + 1) q)
        (a, add32 b (s.getD 0 0), c, add32 d (s.getD 1 0))).2.2.1,
       ((List.range r).foldl (fun q k => rc6EncRound s (k + 1) q)
        (a, add32 b (s.getD 0 0), c, add32 d (s.getD 1 0))).2.2.2) =
      (a, add32 b (s.getD 0 0), c, add32 d (s.getD 1 0)) :=
    foldl_rc6DecRound_rc6EncRound s (List.range r) h1
  rw [h3]
  dsimp only
  rw [sub32_add32 hb _, sub32_add32 hd _]

/-- The word-level RC6 encryption inverts the word-level decryption for every
round-key table, every round count and every in-range state. -/
theorem rc6EncryptWords_rc6DecryptWords (s : List Nat) (r : Nat)
    {st : Nat × Nat × Nat × Nat} (hst : word4Lt st) :
    rc6EncryptWords s r (rc6DecryptWords s r st) = st := by
  obtain ⟨a, b, c, d⟩ := st
  obtain ⟨ha, hb, hc, hd⟩ := hst
  have h1 : word4Lt (sub32 a (s.getD (2 * r + 2) 0), b,
      sub32 c (s.getD (2 * r + 3) 0), d) :=
    ⟨sub32_lt _ _, hb, sub32_lt _ _, hd⟩
  have h2 := foldl_rc6DecRound_word4Lt s (List.range r).reverse h1
  simp only [rc6EncryptWords, rc6DecryptWords]
  rw [add32_sub32 h2.2.1 _, add32_sub32 h2.2.2.2 _]
  have h3 : (List.range r).foldl (fun q k => rc6EncRound s (k + 1) q)
      (((List.range r).reverse.foldl (fun q k => rc6DecRound s (k + 1) q)
        (sub32 a (s.getD (2 * r + 2) 0), b, sub32 c (s.getD (2 * r + 3) 0), d)).1,
       ((List.range r).reverse.foldl (fun q k => rc6DecRound s (k + 1) q)
        (sub32 a (s.getD (2 * r + 2) 0), b, sub32 c (s.getD (2 * r + 3) 0), d)).2.1,
       ((List.range r).reverse.foldl (fun q k => rc6DecRound s (k + 1) q)
        (sub32 a (s.getD (2 * r + 2) 0), b, sub32 c (s.getD (2 * r + 3) 0), d)).2.2.1,
       ((List.range r).reverse.foldl (fun q k => rc6DecRound s (k + 1) q)
        (sub32 a (s.getD (2 * r + 2) 0), b, sub32 c (s.getD (2 * r + 3) 0), d)).2.2.2) =
      (sub32 a (s.getD (2 * r + 2) 0), b, sub32 c (s.getD (2 * r + 3) 0), d) :=
    foldl_rc6EncRound_rc6DecRound s (List.range r) h1
  rw [h3]
  dsimp only
  rw [add32_sub32 ha _, add32_sub32 hc _]

theorem list_length16 (l : List Nat) (h : l.length = 16) :
    ∃ b0 b1 b2 b3 b4 b5 b6 b7 b8 b9 b10 b11 b12 b13 b14 b15,
      l = [b0, b1, b2, b3, b4, b5, b6, b7, b8, b9, b10, b11, b12, b13, b14, b15] := by
  rcases l with _ | ⟨b0, _ | ⟨b1, _ | ⟨b2, _ | ⟨b3, _ | ⟨b4, _ | ⟨b5, _ | ⟨b6, _ | ⟨b7,
    _ | ⟨b8, _ | ⟨b9, _ | ⟨b10, _ | ⟨b11, _ | ⟨b12, _ | ⟨b13, _ | ⟨b14, _ | ⟨b15,
    _ | ⟨b16, tail⟩⟩⟩⟩⟩⟩⟩⟩⟩⟩⟩⟩⟩⟩⟩⟩⟩ <;>
    simp only [List.length_cons, List.length_nil] at h
  all_goals try omega
  exact ⟨b0, b1, b2, b3, b4, b5, b6, b7, b8, b9, b10, b11, b12, b13, b14, b15, rfl⟩

theorem rc6EncryptBlock_length (s : List Nat) (r : Nat) (block : List Nat) :
    (rc6EncryptBlock s r block).length = 16 := by
  simp [rc6EncryptBlock, lePutUint32]

theorem rc6DecryptBlock_length (s : List Nat) (r : Nat) (block : List Nat) :
    (rc6DecryptBlock s r block).length = 16 := by
  simp [rc6DecryptBlock, lePutUint32]

theorem rc6EncryptBlock_allBytes (s : List Nat) (r : Nat) (block : List Nat) :
    allBytes (rc6EncryptBlock s r block) := by
  intro x hx
  simp only [rc6EncryptBlock, List.mem_append] at hx
  rcases hx with ((hx | hx) | hx) | hx <;> exact allBytes_lePutUint32 _ _ hx

theorem rc6DecryptBlock_allBytes (s : List Nat) (r : Nat) (block : List Nat) :
    allBytes (rc6DecryptBlock s r block) := by
  intro x hx
  simp only [rc6DecryptBlock, List.mem_append] at hx
  rcases hx with ((hx | hx) | hx) | hx <;> exact allBytes_lePutUint32 _ _ hx

/-- Byte-level RC6 decryption inverts byte-level encryption on every 16-byte
block, for every round-key table and round count. -/
theorem rc6DecryptBlock_rc6EncryptBlock (s : List Nat) (r : Nat) {block : List Nat}
    (hlen : block.length = 16) (hb : allBytes block) :
    rc6DecryptBlock s r (rc6EncryptBlock s r block) = block := by
  obtain ⟨b0, b1, b2, b3, b4, b5, b6, b7, b8, b9, b10, b11, b12, b13, b14, b15, rfl⟩ :=
    list_length16 block hlen
  have h0 : b0 < 256 := hb _ (by simp)
  have h1 : b1 < 256 := hb _ (by simp)
  have h2 : b2 < 256 := hb _ (by simp)
  have h3 : b3 < 256 := hb _ (by simp)
  have h4 : b4 < 256 := hb _ (by simp)
  have h5 : b5 < 256 := hb _ (by simp)
  have h6 : b6 < 256 := hb _ (by simp)
  have h7 : b7 < 256 := hb _ (by simp)
  have h8 : b8 < 256 := hb _ (by simp)
  have h9 : b9 < 256 := hb _ (by simp)
  have h10 : b10 < 256 := hb _ (by simp)
  have h11 : b11 < 256 := hb _ (by simp)
  have h12 : b12 < 256 := hb _ (by simp)
  have h13 : b13 < 256 := hb _ (by simp)
  have h14 : b14 < 256 := hb _ (by simp)
  have h15 : b15 < 256 := hb _ (by simp)
  have hw : word4Lt (leUint32 b0 b1 b2 b3, leUint32 b4 b5 b6 b7,
      leUint32 b8 b9 b10 b11, leUint32 b12 b13 b14 b15) :=
    ⟨leUint32_lt h0 h1 h2 h3, leUint32_lt h4 h5 h6 h7,
     leUint32_lt h8 h9 h10 h11, leUint32_lt h12 h13 h14 h15⟩
  simp only [rc6EncryptBlock, List.getD_cons_zero, List.getD_cons_succ]
  set q := rc6EncryptWords s r (leUint32 b0 b1 b2 b3, leUint32 b4 b5 b6 b7,
    leUint32 b8 b9 b10 b11, leUint32 b12 b13 b14 b15) with hqdef
  have hq : word4Lt q := rc6EncryptWords_word4Lt s r hw
  simp only [lePutUint32, List.cons_append, List.nil_append]
  simp only [rc6DecryptBlock, List.getD_cons_zero, List.getD_cons_succ]
  rw [leUint32_lePutUint32 hq.1, leUint32_lePutUint32 hq.2.1,
    leUint32_lePutUint32 hq.2.2.1, leUint32_lePutUint32 hq.2.2.2]
  have h3q : rc6DecryptWords s r (q.1, q.2.1, q.2.2.1, q.2.2.2) =
      (leUint32 b0 b1 b2 b3, leUint32 b4 b5 b6 b7,
       leUint32 b8 b9 b10 b11, leUint32 b12 b13 b14 b15) := by
    rw [hqdef]
    exact rc6DecryptWords_rc6EncryptWords s r hw
  rw [h3q]
  dsimp only
  rw [lePutUint32_leUint32 h0 h1 h2 h3, lePutUint32_leUint32 h4 h5 h6 h7,
    lePutUint32_leUint32 h8 h9 h10 h11, lePutUint32_leUint32 h12 h13 h14 h15]
  rfl

/-- Byte-level RC6 encryption inverts byte-level decryption on every 16-byte
block, for every round-key table and round count. -/
theorem rc6EncryptBlock_rc6DecryptBlock (s : List Nat) (r : Nat) {block : List Nat}
    (hlen : block.length = 16) (hb : allBytes block) :
    rc6EncryptBlock s r (rc6DecryptBlock s r block) = block := by
  obtain ⟨b0, b1, b2, b3, b4, b5, b6, b7, b8, b9, b10, b11, b12, b13, b14, b15, rfl⟩ :=
    list_length16 block hlen
  have h0 : b0 < 256 := hb _ (by simp)
  have h1 : b1 < 256 := hb _ (by simp)
  have h2 : b2 < 256 := hb _ (by simp)
  have h3 : b3 < 256 := hb _ (by simp)
  have h4 : b4 < 256 := hb _ (by simp)
  have h5 : b5 < 256 := hb _ (by simp)
  have h6 : b6 < 256 := hb _ (by simp)
  have h7 : b7 < 256 := hb _ (by simp)
  have h8 : b8 < 256 := hb _ (by simp)
  have h9 : b9 < 256 := hb _ (by simp)
  have h10 : b10 < 256 := hb _ (by simp)
  have h11 : b11 < 256 := hb _ (by simp)
  have h12 : b12 < 256 := hb _ (by simp)
  have h13 : b13 < 256 := hb _ (by simp)
  have h14 : b14 < 256 := hb _ (by simp)
  have h15 : b15 < 256 := hb _ (by simp)
  have hw : word4Lt (leUint32 b0 b1 b2 b3, leUint32 b4 b5 b6 b7,
      leUint32 b8 b9 b10 b11, leUint32 b12 b13 b14 b15) :=
    ⟨leUint32_lt h0 h1 h2 h3, leUint32_lt h4 h5 h6 h7,
     leUint32_lt h8 h9 h10 h11, leUint32_lt h12 h13 h14 h15⟩
  simp only [rc6DecryptBlock, List.getD_cons_zero, List.getD_cons_succ]
  set q := rc6DecryptWords s r (leUint32 b0 b1 b2 b3, leUint32 b4 b5 b6 b7,
    leUint32 b8 b9 b10 b11, leUint32 b12 b13 b14 b15) with hqdef
  have hq : word4Lt q := rc6DecryptWords_word4Lt s r hw
  simp only [lePutUint32, List.cons_append, List.nil_append]
  simp only [rc6EncryptBlock, List.getD_cons_zero, List.getD_cons_succ]
  rw [leUint32_lePutUint32 hq.1, leUint32_lePutUint32 hq.2.1,
    leUint32_lePutUint32 hq.2.2.1, leUint32_lePutUint32 hq.2.2.2]
  have h3q : rc6EncryptWords s r (q.1, q.2.1, q.2.2.1, q.2.2.2) =
      (leUint32 b0 b1 b2 b3, leUint32 b4 b5 b6 b7,
       leUint32 b8 b9 b10 b11, leUint32 b12 b13 b14 b15) := by
    rw [hqdef]
    exact rc6EncryptWords_rc6DecryptWords s r hw
  rw [h3q]
  dsimp only
  rw [lePutUint32_leUint32 h0 h1 h2 h3, lePutUint32_leUint32 h4 h5 h6 h7,
    lePutUint32_leUint32 h8 h9 h10 h11, lePutUint32_leUint32 h12 h13 h14 h15]
  rfl

/-- The padding length computed by every `Pad` in `padding.go`:
`blockSize - len(data)%blockSize`, replaced by `blockSize` when zero (that
replacement branch is dead for positive block sizes, but kept faithfully). -/
def padCount (dataLen blockSize : Nat) : Nat :=
  let n := blockSize - dataLen % blockSize
  if n = 0 then blockSize else n

/-- `ZeroPadding.Pad`: append `padCount` zero bytes. -/
def ZeroPad (data : List Nat) (blockSize : Nat) : List Nat :=
  data ++ List.replicate (padCount data.length blockSize) 0

/-- `ZeroPadding.Unpad`: reject empty input, then strip every trailing zero
byte (the backwards scan `for i >= 0 && data[i] == 0 { i-- }`). -/
def ZeroUnpad (data : List Nat) : Except String (List Nat) :=
  if data.length = 0 then Except.error "invalid padded data"
  else Except.ok ((data.reverse.dropWhile (fun x => x == 0)).reverse)

/-- `PKCS7Padding.Pad`: append `padCount` copies of the byte value
`byte(padCount)` (hence modulo 256). -/
def PKCS7Pad (data : List Nat) (blockSize : Nat) : List Nat :=
  data ++ List.replicate (padCount data.length blockSize)
    (padCount data.length blockSize % 256)

/-- `PKCS7Padding.Unpad`: reject empty input; read the last byte as the
padding length; reject a zero or over-long value; verify that all padding
bytes carry that value; strip them. -/
def PKCS7Unpad (data : List Nat) : Except String (List Nat) :=
  if data.length = 0 then Except.error "invalid padded data"
  else
    let paddingLen := data.getD (data.length - 1) 0
    if paddingLen > data.length ∨ paddingLen = 0 then
      Except.error "invalid padding length"
    else if (data.drop (data.length - paddingLen)).all (fun x => x == paddingLen) then
      Except.ok (data.take (data.length - paddingLen))
    else
      Except.error "invalid padding"

/-- `ANSIX923Padding.Pad`: append `padCount - 1` zero bytes and one final
byte holding `byte(padCount)`. -/
def ANSIX923Pad (data : List Nat) (blockSize : Nat) : List Nat :=
  data ++ (List.replicate (padCount data.length blockSize - 1) 0 ++
    [padCount data.length blockSize % 256])

/-- `ANSIX923Padding.Unpad`: reject empty input; validate the final length
byte; verify the prior padding bytes are zero; strip the padding. -/
def ANSIX923Unpad (data : List Nat) : Except String (List Nat) :=
  if data.length = 0 then Except.error "invalid padded data"
  else
    let paddingLen := data.getD (data.length - 1) 0
    if paddingLen > data.length ∨ paddingLen = 0 then
      Except.error "invalid padding length"
    else if ((data.drop (data.length - paddingLen)).take (paddingLen - 1)).all
        (fun x => x == 0) then
      Except.ok (data.take (data.length - paddingLen))
    else
      Except.error "invalid padding"

/-- `ISO10126Padding.Pad`: append `padCount - 1` random bytes (drawn from the
stream `rnd`) and one final byte holding `byte(padCount)`. -/
def ISO10126Pad (data : List Nat) (blockSize : Nat) (rnd : Nat → Nat) : List Nat :=
  data ++ ((List.range (padCount data.length blockSize - 1)).map rnd ++
    [padCount data.length blockSize % 256])

/-- `ISO10126Padding.Unpad`: reject empty input; validate the final length
byte; strip the padding without inspecting the random bytes. -/
def ISO10126Unpad (data : List Nat) : Except String (List Nat) :=
  if data.length = 0 then Except.error "invalid padded data"
  else
    let paddingLen := data.getD (data.length - 1) 0
    if paddingLen > data.length ∨ paddingLen = 0 then
      Except.error "invalid padding length"
    else
      Except.ok (data.take (data.length - paddingLen))

/-- The closed set of padding schemes of `padding.go`. -/
inductive PadScheme
  | zeros
  | pkcs7
  | ansix923
  | iso10126
deriving DecidableEq

/-- `GetPadder`: case-sensitive name lookup; unknown names yield no padder
(the source returns `nil`). -/
def GetPadder (paddingName : String) : Option PadScheme :=
  if paddingName = "ZEROS" then some PadScheme.zeros
  else if paddingName = "PKCS7" then some PadScheme.pkcs7
  else if paddingName = "ANSI_X923" then some PadScheme.ansix923
  else if paddingName = "ISO_10126" then some PadScheme.iso10126
  else none

/-- Dispatch of `Padder.Pad` over the four schemes. -/
def Pad (ps : PadScheme) (data : List Nat) (blockSize : Nat) (rnd : Nat → Nat) :
    List Nat :=
  match ps with
  | PadScheme.zeros => ZeroPad data blockSize
  | PadScheme.pkcs7 => PKCS7Pad data blockSize
  | PadScheme.ansix923 => ANSIX923Pad data blockSize
  | PadScheme.iso10126 => ISO10126Pad data blockSize rnd

/-- Dispatch of `Padder.Unpad` over the four schemes. -/
def Unpad (ps : PadScheme) (data : List Nat) : Except String (List Nat) :=
  match ps with
  | PadScheme.zeros => ZeroUnpad data
  | PadScheme.pkcs7 => PKCS7Unpad data
  | PadScheme.ansix923 => ANSIX923Unpad data
  | PadScheme.iso10126 => ISO10126Unpad data

theorem padCount_pos {dataLen blockSize : Nat} (hbs : 0 < blockSize) :
    0 < padCount dataLen blockSize := by
  have h := Nat.mod_lt dataLen hbs
  simp only [padCount]
  split <;> omega

theorem padCount_le {dataLen blockSize : Nat} (hbs : 0 < blockSize) :
    padCount dataLen blockSize ≤ blockSize := by
  have h := Nat.mod_lt dataLen hbs
  simp only [padCount]
  split <;> omega

theorem padCount_eq {dataLen blockSize : Nat} (hbs : 0 < blockSize) :
    padCount dataLen blockSize = blockSize - dataLen % blockSize := by
  have h := Nat.mod_lt dataLen hbs
  simp only [padCount]
  split <;> omega

/-- Every scheme pads to `len(data) + padCount`. -/
theorem pad_length (ps : PadScheme) (data : List Nat) (blockSize : Nat)
    (rnd : Nat → Nat) (hbs : 0 < blockSize) :
    (Pad ps data blockSize rnd).length = data.length + padCount data.length blockSize := by
  have h1 : 0 < padCount data.length blockSize := padCount_pos hbs
  cases ps <;>
    simp [Pad, ZeroPad, PKCS7Pad, ANSIX923Pad, ISO10126Pad] <;> omega

/-- Padded length is a multiple of the block size. -/
theorem pad_length_mod (ps : PadScheme) (data : List Nat) (blockSize : Nat)
    (rnd : Nat → Nat) (hbs : 0 < blockSize) :
    (Pad ps data blockSize rnd).length % blockSize = 0 := by
  rw [pad_length ps data blockSize rnd hbs, padCount_eq hbs]
  have h1 := Nat.div_add_mod data.length blockSize
  have h2 := Nat.mod_lt data.length hbs
  have h3 : data.length + (blockSize - data.length % blockSize) =
      blockSize * (data.length / blockSize) + blockSize := by omega
  rw [h3, ← Nat.mul_succ, Nat.mul_mod_right]

theorem replicate_eq_append {n : Nat} (hn : 0 < n) (v : Nat) :
    List.replicate n v = List.replicate (n - 1) v ++ [v] := by
  conv_lhs => rw [show n = (n - 1) + 1 by omega]
  exact List.replicate_succ' (n - 1) v

theorem getD_last_append (l : List Nat) (v : Nat) :
    (l ++ [v]).getD ((l ++ [v]).length - 1) 0 = v := by
  rw [List.getD_eq_getElem?_getD, List.length_append, List.length_singleton,
    Nat.add_sub_cancel, List.getElem?_append_right (Nat.le_refl _), Nat.sub_self]
  rfl

/-- `PKCS7` unpadding undoes `PKCS7` padding for block sizes up to 255. -/
theorem PKCS7Unpad_PKCS7Pad (data : List Nat) {blockSize : Nat}
    (hbs : 0 < blockSize) (hbs2 : blockSize ≤ 255) :
    PKCS7Unpad (PKCS7Pad data blockSize) = Except.ok data := by
  have hn1 : 0 < padCount data.length blockSize := padCount_pos hbs
  have hn2 : padCount data.length blockSize ≤ 255 :=
    Nat.le_trans (padCount_le hbs) hbs2
  have hv : padCount data.length blockSize % 256 = padCount data.length blockSize :=
    Nat.mod_eq_of_lt (by omega)
  set n := padCount data.length blockSize with hndef
  rw [PKCS7Pad, ← hndef, hv, replicate_eq_append hn1 n, ← List.append_assoc]
  rw [PKCS7Unpad]
  rw [if_neg (by simp)]
  rw [getD_last_append]
  have hlen : ((data ++ List.replicate (n - 1) n) ++ [n]).length = data.length + n := by
    simp; omega
  rw [if_neg (by rw [hlen]; omega)]
  rw [hlen, show data.length + n - n = data.length from by omega, List.append_assoc,
    List.drop_left, List.take_left]
  rw [if_pos]
  simp only [List.all_eq_true, List.mem_append, List.mem_replicate, List.mem_singleton]
  intro x hx
  rcases hx with h | h
  · exact beq_iff_eq.mpr h.2
  · exact beq_iff_eq.mpr h

/-- `ANSI_X923` unpadding undoes `ANSI_X923` padding for block sizes up
to 255. -/
theorem ANSIX923Unpad_ANSIX923Pad (data : List Nat) {blockSize : Nat}
    (hbs : 0 < blockSize) (hbs2 : blockSize ≤ 255) :
    ANSIX923Unpad (ANSIX923Pad data blockSize) = Except.ok data := by
  have hn1 : 0 < padCount data.length blockSize := padCount_pos hbs
  have hn2 : padCount data.length blockSize ≤ 255 :=
    Nat.le_trans (padCount_le hbs) hbs2
  have hv : padCount data.length blockSize % 256 = padCount data.length blockSize :=
    Nat.mod_eq_of_lt (by omega)
  set n := padCount data.length blockSize with hndef
  rw [ANSIX923Pad, ← hndef, hv, ← List.append_assoc]
  rw [ANSIX923Unpad]
  rw [if_neg (by simp)]
  rw [getD_last_append]
  have hlen : ((data ++ List.replicate (n - 1) 0) ++ [n]).length = data.length + n := by
    simp; omega
  rw [if_neg (by rw [hlen]; omega)]
  rw [hlen, show data.length + n - n = data.length from by omega, List.append_assoc,
    List.drop_left, List.take_left]
  rw [if_pos]
  rw [List.take_left' (by simp)]
  simp [List.all_eq_true, List.mem_replicate]

/-- `ISO_10126` unpadding undoes `ISO_10126` padding for block sizes up
to 255, whatever random bytes were drawn. -/
theorem ISO10126Unpad_ISO10126Pad (data : List Nat) {blockSize : Nat}
    (rnd : Nat → Nat) (hbs : 0 < blockSize) (hbs2 : blockSize ≤ 255) :
    ISO10126Unpad (ISO10126Pad data blockSize rnd) = Except.ok data := by
  have hn1 : 0 < padCount data.length blockSize := padCount_pos hbs
  have hn2 : padCount data.length blockSize ≤ 255 :=
    Nat.le_trans (padCount_le hbs) hbs2
  have hv : padCount data.length blockSize % 256 = padCount data.length blockSize :=
    Nat.mod_eq_of_lt (by omega)
  set n := padCount data.length blockSize with hndef
  rw [ISO10126Pad, ← hndef, hv, ← List.append_assoc]
  rw [ISO10126Unpad]
  rw [if_neg (by simp)]
  rw [getD_last_append]
  have hlen : ((data ++ (List.range (n - 1)).map rnd) ++ [n]).length = data.length + n := by
    simp; omega
  rw [if_neg (by rw [hlen]; omega)]
  rw [hlen, show data.length + n - n = data.length from by omega, List.append_assoc,
    List.take_left]

/-- `ZEROS` unpadding applied to `ZEROS` padding strips the padding together
with every trailing zero byte of the message itself. -/
theorem ZeroUnpad_ZeroPad (data : List Nat) {blockSize : Nat} (hbs : 0 < blockSize) :
    ZeroUnpad (ZeroPad data blockSize) =
      Except.ok ((data.reverse.dropWhile (fun x => x == 0)).reverse) := by
  have hn1 : 0 < padCount data.length blockSize := padCount_pos hbs
  rw [ZeroPad, ZeroUnpad]
  rw [if_neg (by simp; omega)]
  rw [List.reverse_append, List.reverse_replicate]
  rw [List.dropWhile_append_of_pos (by simp [List.mem_replicate])]

/-- The closed set of modes of operation of `modes.go`. -/
inductive ModeKind
  | ecb
  | cbc
  | pcbc
  | cfb
  | ofb
  | ctr
  | randomDelta
deriving DecidableEq

/-- `GetMode`: case-sensitive name lookup; unknown names yield no mode
(the source returns `nil`). -/
def GetMode (modeName : String) : Option ModeKind :=
  if modeName = "ECB" then some ModeKind.ecb
  else if modeName = "CBC" then some ModeKind.cbc
  else if modeName = "PCBC" then some ModeKind.pcbc
  else if modeName = "CFB" then some ModeKind.cfb
  else if modeName = "OFB" then some ModeKind.ofb
  else if modeName = "CTR" then some ModeKind.ctr
  else if modeName = "RANDOM_DELTA" then some ModeKind.randomDelta
  else none

/-- `RequiresIV` of each mode: every mode except ECB. -/
def RequiresIV (m : ModeKind) : Bool :=
  match m with
  | ModeKind.ecb => false
  | _ => true

/-- Byte-wise XOR of two buffers (the `for j` loops of `modes.go`),
truncating to the shorter operand. -/
def xorBytes (a b : List Nat) : List Nat := List.zipWith (fun x y => x ^^^ y) a b

/-- The block loop of `ECBMode`: transform each block independently. -/
def ecbLoop (E : List Nat → List Nat) (bs : Nat) (pt : List Nat) : List Nat :=
  if h : bs = 0 ∨ pt = [] then []
  else E (pt.take bs) ++ ecbLoop E bs (pt.drop bs)
termination_by pt.length
decreasing_by
  simp only [List.length_drop]
  push_neg at h
  have h1 : 0 < pt.length := List.length_pos.mpr h.2
  omega

/-- `ECBMode.Encrypt`: the input length must be a block multiple. -/
def ECBEncrypt (E : List Nat → List Nat) (bs : Nat) (pt : List Nat) :
    Except String (List Nat) :=
  if pt.length % bs ≠ 0 then
    Except.error "plaintext length must be multiple of block size"
  else Except.ok (ecbLoop E bs pt)

/-- `ECBMode.Decrypt`: the input length must be a block multiple. -/
def ECBDecrypt (D : List Nat → List Nat) (bs : Nat) (ct : List Nat) :
    Except String (List Nat) :=
  if ct.length % bs ≠ 0 then
    Except.error "ciphertext length must be multiple of block size"
  else Except.ok (ecbLoop D bs ct)

/-- The block loop of `CBCMode.Encrypt`: XOR with the previous ciphertext
block (initially the IV), encrypt, chain. -/
def cbcEncLoop (E : List Nat → List Nat) (bs : Nat) (prev pt : List Nat) : List Nat :=
  if h : bs = 0 ∨ pt = [] then []
  else
    E (xorBytes (pt.take bs) prev) ++
      cbcEncLoop E bs (E (xorBytes (pt.take bs) prev)) (pt.drop bs)
termination_by pt.length
decreasing_by
  simp only [List.length_drop]
  push_neg at h
  have h1 : 0 < pt.length := List.length_pos.mpr h.2
  omega

/-- The block loop of `CBCMode.Decrypt`: decrypt, XOR with the previous
ciphertext block (initially the IV), chain on the ciphertext. -/
def cbcDecLoop (D : List Nat → List Nat) (bs : Nat) (prev ct : List Nat) : List Nat :=
  if h : bs = 0 ∨ ct = [] then []
  else xorBytes (D (ct.take bs)) prev ++ cbcDecLoop D bs (ct.take bs) (ct.drop bs)
termination_by ct.length
decreasing_by
  simp only [List.length_drop]
  push_neg at h
  have h1 : 0 < ct.length := List.length_pos.mpr h.2
  omega

/-- `CBCMode.Encrypt`: IV must be block-sized, input a block multiple. -/
def CBCEncrypt (E : List Nat → List Nat) (bs : Nat) (pt iv : List Nat) :
    Except String (List Nat) :=
  if iv.length ≠ bs then Except.error "IV length must equal block size"
  else if pt.length % bs ≠ 0 then
    Except.error "plaintext length must be multiple of block size"
  else Except.ok (cbcEncLoop E bs iv pt)

/-- `CBCMode.Decrypt`. -/
def CBCDecrypt (D : List Nat → List Nat) (bs : Nat) (ct iv : List Nat) :
    Except String (List Nat) :=
  if iv.length ≠ bs then Except.error "IV length must equal block size"
  else if ct.length % bs ≠ 0 then
    Except.error "ciphertext length must be multiple of block size"
  else Except.ok (cbcDecLoop D bs iv ct)

/-- The block loop of `PCBCMode.Encrypt`: chain on plaintext XOR ciphertext. -/
def pcbcEncLoop (E : List Nat → List Nat) (bs : Nat) (prev pt : List Nat) : List Nat :=
  if h : bs = 0 ∨ pt = [] then []
  else
    E (xorBytes (pt.take bs) prev) ++
      pcbcEncLoop E bs (xorBytes (pt.take bs) (E (xorBytes (pt.take bs) prev)))
        (pt.drop bs)
termination_by pt.length
decreasing_by
  simp only [List.length_drop]
  push_neg at h
  have h1 : 0 < pt.length := List.length_pos.mpr h.2
  omega

/-- The block loop of `PCBCMode.Decrypt`. -/
def pcbcDecLoop (D : List Nat → List Nat) (bs : Nat) (prev ct : List Nat) : List Nat :=
  if h : bs = 0 ∨ ct = [] then []
  else
    xorBytes (D (ct.take bs)) prev ++
      pcbcDecLoop D bs (xorBytes (xorBytes (D (ct.take bs)) prev) (ct.take bs))
        (ct.drop bs)
termination_by ct.length
decreasing_by
  simp only [List.length_drop]
  push_neg at h
  have h1 : 0 < ct.length := List.length_pos.mpr h.2
  omega

/-- `PCBCMode.Encrypt`. -/
def PCBCEncrypt (E : List Nat → List Nat) (bs : Nat) (pt iv : List Nat) :
    Except String (List Nat) :=
  if iv.length ≠ bs then Except.error "IV length must equal block size"
  else if pt.length % bs ≠ 0 then
    Except.error "plaintext length must be multiple of block size"
  else Except.ok (pcbcEncLoop E bs iv pt)

/-- `PCBCMode.Decrypt`. -/
def PCBCDecrypt (D : List Nat → List Nat) (bs : Nat) (ct iv : List Nat) :
    Except String (List Nat) :=
  if iv.length ≠ bs then Except.error "IV length must equal block size"
  else if ct.length % bs ≠ 0 then
    Except.error "ciphertext length must be multiple of block size"
  else Except.ok (pcbcDecLoop D bs iv ct)

/-- The chunk loop of `CFBMode.Encrypt`: encrypt the register, XOR with the
next (possibly partial) chunk, shift the ciphertext chunk into the register. -/
def cfbEncLoop (E : List Nat → List Nat) (bs : Nat) (register pt : List Nat) :
    List Nat :=
  if h : bs = 0 ∨ pt = [] then []
  else
    xorBytes (pt.take bs) (E register) ++
      cfbEncLoop E bs
        (register.drop (xorBytes (pt.take bs) (E register)).length ++
          xorBytes (pt.take bs) (E register))
        (pt.drop bs)
termination_by pt.length
decreasing_by
  simp only [List.length_drop]
  push_neg at h
  have h1 : 0 < pt.length := List.length_pos.mpr h.2
  omega

/-- The chunk loop of `CFBMode.Decrypt`: the register is fed with the
ciphertext chunk that was just consumed. -/
def cfbDecLoop (E : List Nat → List Nat) (bs : Nat) (register ct : List Nat) :
    List Nat :=
  if h : bs = 0 ∨ ct = [] then []
  else
    xorBytes (ct.take bs) (E register) ++
      cfbDecLoop E bs (register.drop (ct.take bs).length ++ ct.take bs) (ct.drop bs)
termination_by ct.length
decreasing_by
  simp only [List.length_drop]
  push_neg at h
  have h1 : 0 < ct.length := List.length_pos.mpr h.2
  omega

/-- `CFBMode.Encrypt`: only the IV length is validated. -/
def CFBEncrypt (E : List Nat → List Nat) (bs : Nat) (pt iv : List Nat) :
    Except String (List Nat) :=
  if iv.length ≠ bs then Except.error "IV length must equal block size"
  else Except.ok (cfbEncLoop E bs iv pt)

/-- `CFBMode.Decrypt`. -/
def CFBDecrypt (E : List Nat → List Nat) (bs : Nat) (ct iv : List Nat) :
    Except String (List Nat) :=
  if iv.length ≠ bs then Except.error "IV length must equal block size"
  else Except.ok (cfbDecLoop E bs iv ct)

/-- The chunk loop of `OFBMode.Encrypt`: the encrypted keystream value is both
the XOR material and the next keystream value. -/
def ofbLoop (E : List Nat → List Nat) (bs : Nat) (keystream pt : List Nat) :
    List Nat :=
  if h : bs = 0 ∨ pt = [] then []
  else xorBytes (pt.take bs) (E keystream) ++ ofbLoop E bs (E keystream) (pt.drop bs)
termination_by pt.length
decreasing_by
  simp only [List.length_drop]
  push_neg at h
  have h1 : 0 < pt.length := List.length_pos.mpr h.2
  omega

/-- `OFBMode.Encrypt`. -/
def OFBEncrypt (E : List Nat → List Nat) (bs : Nat) (pt iv : List Nat) :
    Except String (List Nat) :=
  if iv.length ≠ bs then Except.error "IV length must equal block size"
  else Except.ok (ofbLoop E bs iv pt)

/-- `OFBMode.Decrypt` is the same function as the encryption. -/
def OFBDecrypt (E : List Nat → List Nat) (bs : Nat) (ct iv : List Nat) :
    Except String (List Nat) :=
  OFBEncrypt E bs ct iv

/-- `incrementCounter`: increment as a big-endian byte counter, carrying
leftwards from the last byte, each byte wrapping modulo 256. -/
def incAux : List Nat → List Nat
  | [] => []
  | x :: xs => if (x + 1) % 256 = 0 then 0 :: incAux xs else ((x + 1) % 256) :: xs

/-- `incrementCounter` on the counter in its stored (big-endian) order. -/
def incrementCounter (counter : List Nat) : List Nat :=
  (incAux counter.reverse).reverse

/-- The chunk loop of `CTRMode.Encrypt`: encrypt the counter, XOR, increment. -/
def ctrLoop (E : List Nat → List Nat) (bs : Nat) (counter pt : List Nat) :
    List Nat :=
  if h : bs = 0 ∨ pt = [] then []
  else
    xorBytes (pt.take bs) (E counter) ++
      ctrLoop E bs (incrementCounter counter) (pt.drop bs)
termination_by pt.length
decreasing_by
  simp only [List.length_drop]
  push_neg at h
  have h1 : 0 < pt.length := List.length_pos.mpr h.2
  omega

/-- `CTRMode.Encrypt`. -/
def CTREncrypt (E : List Nat → List Nat) (bs : Nat) (pt iv : List Nat) :
    Except String (List Nat) :=
  if iv.length ≠ bs then Except.error "IV length must equal block size"
  else Except.ok (ctrLoop E bs iv pt)

/-- `CTRMode.Decrypt` is the same function as the encryption. -/
def CTRDecrypt (E : List Nat → List Nat) (bs : Nat) (ct iv : List Nat) :
    Except String (List Nat) :=
  CTREncrypt E bs ct iv

/-- The chunk loop of `RandomDeltaMode`: encrypt the state, XOR with the
chunk, then XOR a freshly drawn random block (`deltas k`) into the state.
The random source is modelled as the stream `deltas` of drawn blocks. -/
def rdLoop (E : List Nat → List Nat) (bs : Nat) (state : List Nat)
    (deltas : Nat → List Nat) (k : Nat) (pt : List Nat) : List Nat :=
  if h : bs = 0 ∨ pt = [] then []
  else
    xorBytes (pt.take bs) (E state) ++
      rdLoop E bs (xorBytes state (deltas k)) deltas (k + 1) (pt.drop bs)
termination_by pt.length
decreasing_by
  simp only [List.length_drop]
  push_neg at h
  have h1 : 0 < pt.length := List.length_pos.mpr h.2
  omega

/-- `RandomDeltaMode.Encrypt`: the deltas are drawn during encryption. -/
def RDEncrypt (E : List Nat → List Nat) (bs : Nat) (pt iv : List Nat)
    (deltas : Nat → List Nat) : Except String (List Nat) :=
  if iv.length ≠ bs then Except.error "IV length must equal block size"
  else Except.ok (rdLoop E bs iv deltas 0 pt)

/-- `RandomDeltaMode.Decrypt`: the source draws its own fresh random deltas,
independent of those drawn during encryption. -/
def RDDecrypt (E : List Nat → List Nat) (bs : Nat) (ct iv : List Nat)
    (deltas : Nat → List Nat) : Except String (List Nat) :=
  if iv.length ≠ bs then Except.error "IV length must equal block size"
  else Except.ok (rdLoop E bs iv deltas 0 ct)

/-- Dispatch of `Mode.Encrypt` over the seven modes; `deltas` is consumed
only by `RANDOM_DELTA`. -/
def ModeEncrypt (m : ModeKind) (E : List Nat → List Nat) (bs : Nat)
    (pt iv : List Nat) (deltas : Nat → List Nat) : Except String (List Nat) :=
  match m with
  | ModeKind.ecb => ECBEncrypt E bs pt
  | ModeKind.cbc => CBCEncrypt E bs pt iv
  | ModeKind.pcbc => PCBCEncrypt E bs pt iv
  | ModeKind.cfb => CFBEncrypt E bs pt iv
  | ModeKind.ofb => OFBEncrypt E bs pt iv
  | ModeKind.ctr => CTREncrypt E bs pt iv
  | ModeKind.randomDelta => RDEncrypt E bs pt iv deltas

/-- Dispatch of `Mode.Decrypt` over the seven modes; only ECB, CBC and PCBC
use the block decryption `D`, the stream-like modes re-use `E`. -/
def ModeDecrypt (m : ModeKind) (E D : List Nat → List Nat) (bs : Nat)
    (ct iv : List Nat) (deltas : Nat → List Nat) : Except String (List Nat) :=
  match m with
  | ModeKind.ecb => ECBDecrypt D bs ct
  | ModeKind.cbc => CBCDecrypt D bs ct iv
  | ModeKind.pcbc => PCBCDecrypt D bs ct iv
  | ModeKind.cfb => CFBDecrypt E bs ct iv
  | ModeKind.ofb => OFBDecrypt E bs ct iv
  | ModeKind.ctr => CTRDecrypt E bs ct iv
  | ModeKind.randomDelta => RDDecrypt E bs ct iv deltas

theorem allBytes_append {a b : List Nat} :
    allBytes (a ++ b) ↔ allBytes a ∧ allBytes b := List.forall_mem_append

theorem allBytes_take {l : List Nat} (h : allBytes l) (n : Nat) :
    allBytes (l.take n) := fun x hx => h x ((List.take_sublist n l).subset hx)

theorem allBytes_drop {l : List Nat} (h : allBytes l) (n : Nat) :
    allBytes (l.drop n) := fun x hx => h x ((List.drop_sublist n l).subset hx)

theorem byte_xor_lt {x y : Nat} (hx : x < 256) (hy : y < 256) : x ^^^ y < 256 := by
  have h : x ^^^ y < 2 ^ 8 := Nat.xor_lt_two_pow (by omega) (by omega)
  omega

theorem allBytes_xorBytes {a b : List Nat} (ha : allBytes a) (hb : allBytes b) :
    allBytes (xorBytes a b) := by
  induction a generalizing b with
  | nil => intro x hx; simp [xorBytes] at hx
  | cons x xs ih =>
    cases b with
    | nil => intro y hy; simp [xorBytes] at hy
    | cons y ys =>
      intro z hz
      simp only [xorBytes, List.zipWith_cons_cons, List.mem_cons] at hz
      rcases hz with rfl | hz
      · exact byte_xor_lt (ha x (by simp)) (hb y (by simp))
      · exact ih (fun u hu => ha u (by simp [hu])) (fun u hu => hb u (by simp [hu])) z hz

theorem xorBytes_length (a b : List Nat) :
    (xorBytes a b).length = min a.length b.length := List.length_zipWith _ _ _

/-- XOR-ing twice with the same buffer gives the input back. -/
theorem xorBytes_xorBytes {a b : List Nat} (h : a.length ≤ b.length) :
    xorBytes (xorBytes a b) b = a := by
  induction a generalizing b with
  | nil => simp [xorBytes]
  | cons x xs ih =>
    cases b with
    | nil => simp at h
    | cons y ys =>
      simp only [xorBytes, List.zipWith_cons_cons, Nat.xor_cancel_right]
      rw [show List.zipWith (fun x y => x ^^^ y) (List.zipWith (fun x y => x ^^^ y) xs ys) ys = xorBytes (xorBytes xs ys) ys from rfl,
        ih (by simpa using h)]

theorem mod_sub_block {L bs : Nat} (h : L % bs = 0) (hle : bs ≤ L) :
    (L - bs) % bs = 0 := by
  obtain ⟨k, rfl⟩ := Nat.dvd_of_mod_eq_zero h
  rcases k with _ | k2
  · simp
  · rw [Nat.mul_succ, Nat.add_sub_cancel, Nat.mul_mod_right]

theorem block_le_of_mod {L bs : Nat} (hmod : L % bs = 0) (hpos : 0 < L) :
    bs ≤ L := by
  by_contra hlt
  push_neg at hlt
  rw [Nat.mod_eq_of_lt hlt] at hmod
  omega

theorem ecbLoop_length (f : List Nat → List Nat) (bs : Nat) (hbs : 0 < bs)
    (hflen : ∀ b, b.length = bs → allBytes b → (f b).length = bs) :
    ∀ N pt, pt.length ≤ N → pt.length % bs = 0 → allBytes pt →
      (ecbLoop f bs pt).length = pt.length := by
  intro N
  induction N with
  | zero =>
    intro pt hle _ _
    have hnil : pt = [] := List.eq_nil_of_length_eq_zero (by omega)
    subst hnil
    rw [ecbLoop]
    simp
  | succ n ih =>
    intro pt hle hmod hbytes
    by_cases hpt : pt = []
    · subst hpt; rw [ecbLoop]; simp
    · have hptpos : 0 < pt.length := List.length_pos.mpr hpt
      have hbsle : bs ≤ pt.length := block_le_of_mod hmod hptpos
      have hcond : ¬(bs = 0 ∨ pt = []) := by push_neg; exact ⟨by omega, hpt⟩
      rw [ecbLoop, dif_neg hcond]
      have htake : (pt.take bs).length = bs := by rw [List.length_take]; omega
      rw [List.length_append, hflen _ htake (allBytes_take hbytes bs),
        ih (pt.drop bs) (by rw [List.length_drop]; omega)
          (by rw [List.length_drop]; exact mod_sub_block hmod hbsle)
          (allBytes_drop hbytes bs), List.length_drop]
      omega

theorem ecbLoop_roundtrip (E D : List Nat → List Nat) (bs : Nat) (hbs : 0 < bs)
    (hED : ∀ b, b.length = bs → allBytes b → D (E b) = b)
    (hElen : ∀ b, b.length = bs → allBytes b → (E b).length = bs) :
    ∀ N pt, pt.length ≤ N → pt.length % bs = 0 → allBytes pt →
      ecbLoop D bs (ecbLoop E bs pt) = pt := by
  intro N
  induction N with
  | zero =>
    intro pt hle _ _
    have hnil : pt = [] := List.eq_nil_of_length_eq_zero (by omega)
    subst hnil
    rw [ecbLoop]
    simp
    rw [ecbLoop]
    simp
  | succ n ih =>
    intro pt hle hmod hbytes
    by_cases hpt : pt = []
    · subst hpt
      rw [ecbLoop]
      simp
      rw [ecbLoop]
      simp
    · have hptpos : 0 < pt.length := List.length_pos.mpr hpt
      have hbsle : bs ≤ pt.length := block_le_of_mod hmod hptpos
      have hcond : ¬(bs = 0 ∨ pt = []) := by push_neg; exact ⟨by omega, hpt⟩
      have htake : (pt.take bs).length = bs := by rw [List.length_take]; omega
      have htakeb : allBytes (pt.take bs) := allBytes_take hbytes bs
      have hEb : (E (pt.take bs)).length = bs := hElen _ htake htakeb
      have hEbne : E (pt.take bs) ≠ [] := by
        intro hh
        rw [hh] at hEb
        simp at hEb
        omega
      have hcond2 : ¬(bs = 0 ∨ E (pt.take bs) ++ ecbLoop E bs (pt.drop bs) = []) := by
        push_neg
        refine ⟨by omega, ?_⟩
        simp [hEbne]
      have henc : ecbLoop E bs pt = E (pt.take bs) ++ ecbLoop E bs (pt.drop bs) := by
        rw [ecbLoop, dif_neg hcond]
      rw [henc]
      rw [ecbLoop, dif_neg hcond2, List.take_left' hEb, List.drop_left' hEb,
        hED _ htake htakeb,
        ih (pt.drop bs) (by rw [List.length_drop]; omega)
          (by rw [List.length_drop]; exact mod_sub_block hmod hbsle)
          (allBytes_drop hbytes bs),
        List.take_append_drop]

theorem cbcEncLoop_length (E : List Nat → List Nat) (bs : Nat) (hbs : 0 < bs)
    (hElen : ∀ b, b.length = bs → allBytes b → (E b).length = bs)
    (hEbytes : ∀ b, b.length = bs → allBytes b → allBytes (E b)) :
    ∀ N pt prev, pt.length ≤ N → pt.length % bs = 0 → allBytes pt →
      prev.length = bs → allBytes prev →
      (cbcEncLoop E bs prev pt).length = pt.length := by
  intro N
  induction N with
  | zero =>
    intro pt prev hle _ _ _ _
    have hnil : pt = [] := List.eq_nil_of_length_eq_zero (by omega)
    subst hnil
    rw [cbcEncLoop]
    simp
  | succ n ih =>
    intro pt prev hle hmod hbytes hprevlen hprevb
    by_cases hpt : pt = []
    · subst hpt; rw [cbcEncLoop]; simp
    · have hptpos : 0 < pt.length := List.length_pos.mpr hpt
      have hbsle : bs ≤ pt.length := block_le_of_mod hmod hptpos
      have hcond : ¬(bs = 0 ∨ pt = []) := by push_neg; exact ⟨by omega, hpt⟩
      have htake : (pt.take bs).length = bs := by rw [List.length_take]; omega
      have hxlen : (xorBytes (pt.take bs) prev).length = bs := by
        rw [xorBytes_length]; omega
      have hxb : allBytes (xorBytes (pt.take bs) prev) :=
        allBytes_xorBytes (allBytes_take hbytes bs) hprevb
      rw [cbcEncLoop, dif_neg hcond, List.length_append, hElen _ hxlen hxb,
        ih (pt.drop bs) _ (by rw [List.length_drop]; omega)
          (by rw [List.length_drop]; exact mod_sub_block hmod hbsle)
          (allBytes_drop hbytes bs) (hElen _ hxlen hxb) (hEbytes _ hxlen hxb),
        List.length_drop]
      omega

theorem cbcLoop_roundtrip (E D : List Nat → List Nat) (bs : Nat) (hbs : 0 < bs)
    (hED : ∀ b, b.length = bs → allBytes b → D (E b) = b)
    (hElen : ∀ b, b.length = bs → allBytes b → (E b).length = bs)
    (hEbytes : ∀ b, b.length = bs → allBytes b → allBytes (E b)) :
    ∀ N pt prev, pt.length ≤ N → pt.length % bs = 0 → allBytes pt →
      prev.length = bs → allBytes prev →
      cbcDecLoop D bs prev (cbcEncLoop E bs prev pt) = pt := by
  intro N
  induction N with
  | zero =>
    intro pt prev hle _ _ _ _
    have hnil : pt = [] := List.eq_nil_of_length_eq_zero (by omega)
    subst hnil
    rw [cbcEncLoop]
    simp
    rw [cbcDecLoop]
    simp
  | succ n ih =>
    intro pt prev hle hmod hbytes hprevlen hprevb
    by_cases hpt : pt = []
    · subst hpt
      rw [cbcEncLoop]
      simp
      rw [cbcDecLoop]
      simp
    · have hptpos : 0 < pt.length := List.length_pos.mpr hpt
      have hbsle : bs ≤ pt.length := block_le_of_mod hmod hptpos
      have hcond : ¬(bs = 0 ∨ pt = []) := by push_neg; exact ⟨by omega, hpt⟩
      have htake : (pt.take bs).length = bs := by rw [List.length_take]; omega
      have hxlen : (xorBytes (pt.take bs) prev).length = bs := by
        rw [xorBytes_length]; omega
      have hxb : allBytes (xorBytes (pt.take bs) prev) :=
        allBytes_xorBytes (allBytes_take hbytes bs) hprevb
      have hC : (E (xorBytes (pt.take bs) prev)).length = bs := hElen _ hxlen hxb
      have hCne : E (xorBytes (pt.take bs) prev) ≠ [] := by
        intro hh
        rw [hh] at hC
        simp at hC
        omega
      have henc : cbcEncLoop E bs prev pt =
          E (xorBytes (pt.take bs) prev) ++
            cbcEncLoop E bs (E (xorBytes (pt.take bs) prev)) (pt.drop bs) := by
        rw [cbcEncLoop, dif_neg hcond]
      rw [henc]
      have hcond2 : ¬(bs = 0 ∨ E (xorBytes (pt.take bs) prev) ++
          cbcEncLoop E bs (E (xorBytes (pt.take bs) prev)) (pt.drop bs) = []) := by
        push_neg
        refine ⟨by omega, ?_⟩
        simp [hCne]
      rw [cbcDecLoop, dif_neg hcond2, List.take_left' hC, List.drop_left' hC,
        hED _ hxlen hxb, xorBytes_xorBytes (by omega),
        ih (pt.drop bs) _ (by rw [List.length_drop]; omega)
          (by rw [List.length_drop]; exact mod_sub_block hmod hbsle)
          (allBytes_drop hbytes bs) hC (hEbytes _ hxlen hxb),
        List.take_append_drop]

theorem pcbcEncLoop_length (E : List Nat → List Nat) (bs : Nat) (hbs : 0 < bs)
    (hElen : ∀ b, b.length = bs → allBytes b → (E b).length = bs)
    (hEbytes : ∀ b, b.length = bs → allBytes b → allBytes (E b)) :
    ∀ N pt prev, pt.length ≤ N → pt.length % bs = 0 → allBytes pt →
      prev.length = bs → allBytes prev →
      (pcbcEncLoop E bs prev pt).length = pt.length := by
  intro N
  induction N with
  | zero =>
    intro pt prev hle _ _ _ _
    have hnil : pt = [] := List.eq_nil_of_length_eq_zero (by omega)
    subst hnil
    rw [pcbcEncLoop]
    simp
  | succ n ih =>
    intro pt prev hle hmod hbytes hprevlen hprevb
    by_cases hpt : pt = []
    · subst hpt; rw [pcbcEncLoop]; simp
    · have hptpos : 0 < pt.length := List.length_pos.mpr hpt
      have hbsle : bs ≤ pt.length := block_le_of_mod hmod hptpos
      have hcond : ¬(bs = 0 ∨ pt = []) := by push_neg; exact ⟨by omega, hpt⟩
      have htake : (pt.take bs).length = bs := by rw [List.length_take]; omega
      have hxlen : (xorBytes (pt.take bs) prev).length = bs := by
        rw [xorBytes_length]; omega
      have hxb : allBytes (xorBytes (pt.take bs) prev) :=
        allBytes_xorBytes (allBytes_take hbytes bs) hprevb
      have hC : (E (xorBytes (pt.take bs) prev)).length = bs := hElen _ hxlen hxb
      have hnext : (xorBytes (pt.take bs) (E (xorBytes (pt.take bs) prev))).length = bs := by
        rw [xorBytes_length]; omega
      have hnextb : allBytes (xorBytes (pt.take bs) (E (xorBytes (pt.take bs) prev))) :=
        allBytes_xorBytes (allBytes_take hbytes bs) (hEbytes _ hxlen hxb)
      rw [pcbcEncLoop, dif_neg hcond, List.length_append, hC,
        ih (pt.drop bs) _ (by rw [List.length_drop]; omega)
          (by rw [List.length_drop]; exact mod_sub_block hmod hbsle)
          (allBytes_drop hbytes bs) hnext hnextb,
        List.length_drop]
      omega

theorem pcbcLoop_roundtrip (E D : List Nat → List Nat) (bs : Nat) (hbs : 0 < bs)
    (hED : ∀ b, b.length = bs → allBytes b → D (E b) = b)
    (hElen : ∀ b, b.length = bs → allBytes b → (E b).length = bs)
    (hEbytes : ∀ b, b.length = bs → allBytes b → allBytes (E b)) :
    ∀ N pt prev, pt.length ≤ N → pt.length % bs = 0 → allBytes pt →
      prev.length = bs → allBytes prev →
      pcbcDecLoop D bs prev (pcbcEncLoop E bs prev pt) = pt := by
  intro N
  induction N with
  | zero =>
    intro pt prev hle _ _ _ _
    have hnil : pt = [] := List.eq_nil_of_length_eq_zero (by omega)
    subst hnil
    rw [pcbcEncLoop]
    simp
    rw [pcbcDecLoop]
    simp
  | succ n ih =>
    intro pt prev hle hmod hbytes hprevlen hprevb
    by_cases hpt : pt = []
    · subst hpt
      rw [pcbcEncLoop]
      simp
      rw [pcbcDecLoop]
      simp
    · have hptpos : 0 < pt.length := List.length_pos.mpr hpt
      have hbsle : bs ≤ pt.length := block_le_of_mod hmod hptpos
      have hcond : ¬(bs = 0 ∨ pt = []) := by push_neg; exact ⟨by omega, hpt⟩
      have htake : (pt.take bs).length = bs := by rw [List.length_take]; omega
      have hxlen : (xorBytes (pt.take bs) prev).length = bs := by
        rw [xorBytes_length]; omega
      have hxb : allBytes (xorBytes (pt.take bs) prev) :=
        allBytes_xorBytes (allBytes_take hbytes bs) hprevb
      have hC : (E (xorBytes (pt.take bs) prev)).length = bs := hElen _ hxlen hxb
      have hCne : E (xorBytes (pt.take bs) prev) ≠ [] := by
        intro hh
        rw [hh] at hC
        simp at hC
        omega
      have hnext : (xorBytes (pt.take bs) (E (xorBytes (pt.take bs) prev))).length = bs := by
        rw [xorBytes_length]; omega
      have hnextb : allBytes (xorBytes (pt.take bs) (E (xorBytes (pt.take bs) prev))) :=
        allBytes_xorBytes (allBytes_take hbytes bs) (hEbytes _ hxlen hxb)
      have henc : pcbcEncLoop E bs prev pt =
          E (xorBytes (pt.take bs) prev) ++
            pcbcEncLoop E bs (xorBytes (pt.take bs) (E (xorBytes (pt.take bs) prev)))
              (pt.drop bs) := by
        rw [pcbcEncLoop, dif_neg hcond]
      rw [henc]
      have hcond2 : ¬(bs = 0 ∨ E (xorBytes (pt.take bs) prev) ++
          pcbcEncLoop E bs (xorBytes (pt.take bs) (E (xorBytes (pt.take bs) prev)))
            (pt.drop bs) = []) := by
        push_neg
        refine ⟨by omega, ?_⟩
        simp [hCne]
      rw [pcbcDecLoop, dif_neg hcond2, List.take_left' hC, List.drop_left' hC,
        hED _ hxlen hxb, xorBytes_xorBytes (by omega),
        ih (pt.drop bs) _ (by rw [List.length_drop]; omega)
          (by rw [List.length_drop]; exact mod_sub_block hmod hbsle)
          (allBytes_drop hbytes bs) hnext hnextb,
        List.take_append_drop]

theorem cfbLoop_roundtrip (E : List Nat → List Nat) (bs : Nat) (hbs : 0 < bs)
    (hElen : ∀ b, b.length = bs → allBytes b → (E b).length = bs)
    (hEbytes : ∀ b, b.length = bs → allBytes b → allBytes (E b)) :
    ∀ N pt reg, pt.length ≤ N → pt.length % bs = 0 → allBytes pt →
      reg.length = bs → allBytes reg →
      cfbDecLoop E bs reg (cfbEncLoop E bs reg pt) = pt := by
  intro N
  induction N with
  | zero =>
    intro pt reg hle _ _ _ _
    have hnil : pt = [] := List.eq_nil_of_length_eq_zero (by omega)
    subst hnil
    rw [cfbEncLoop]
    simp
    rw [cfbDecLoop]
    simp
  | succ n ih =>
    intro pt reg hle hmod hbytes hreglen hregb
    by_cases hpt : pt = []
    · subst hpt
      rw [cfbEncLoop]
      simp
      rw [cfbDecLoop]
      simp
    · have hptpos : 0 < pt.length := List.length_pos.mpr hpt
      have hbsle : bs ≤ pt.length := block_le_of_mod hmod hptpos
      have hcond : ¬(bs = 0 ∨ pt = []) := by push_neg; exact ⟨by omega, hpt⟩
      have htake : (pt.take bs).length = bs := by rw [List.length_take]; omega
      have hks : (E reg).length = bs := hElen _ hreglen hregb
      have hct : (xorBytes (pt.take bs) (E reg)).length = bs := by
        rw [xorBytes_length]; omega
      have hctb : allBytes (xorBytes (pt.take bs) (E reg)) :=
        allBytes_xorBytes (allBytes_take hbytes bs) (hEbytes _ hreglen hregb)
      have hctne : xorBytes (pt.take bs) (E reg) ≠ [] := by
        intro hh
        rw [hh] at hct
        simp at hct
        omega
      have henc : cfbEncLoop E bs reg pt =
          xorBytes (pt.take bs) (E reg) ++
            cfbEncLoop E bs
              (reg.drop (xorBytes (pt.take bs) (E reg)).length ++
                xorBytes (pt.take bs) (E reg)) (pt.drop bs) := by
        rw [cfbEncLoop, dif_neg hcond]
      rw [henc]
      have hcond2 : ¬(bs = 0 ∨ xorBytes (pt.take bs) (E reg) ++
          cfbEncLoop E bs
            (reg.drop (xorBytes (pt.take bs) (E reg)).length ++
              xorBytes (pt.take bs) (E reg)) (pt.drop bs) = []) := by
        push_neg
        refine ⟨by omega, ?_⟩
        simp [hctne]
      have hnewlen : (reg.drop (xorBytes (pt.take bs) (E reg)).length ++
          xorBytes (pt.take bs) (E reg)).length = bs := by
        rw [List.length_append, List.length_drop]
        omega
      have hnewb : allBytes (reg.drop (xorBytes (pt.take bs) (E reg)).length ++
          xorBytes (pt.take bs) (E reg)) :=
        allBytes_append.mpr ⟨allBytes_drop hregb _, hctb⟩
      rw [cfbDecLoop, dif_neg hcond2,
        List.take_left' hct, List.drop_left' hct,
        xorBytes_xorBytes (by omega),
        ih (pt.drop bs) _ (by rw [List.length_drop]; omega)
          (by rw [List.length_drop]; exact mod_sub_block hmod hbsle)
          (allBytes_drop hbytes bs) hnewlen hnewb,
        List.take_append_drop]

theorem ofbLoop_roundtrip (E : List Nat → List Nat) (bs : Nat) (hbs : 0 < bs)
    (hElen : ∀ b, b.length = bs → allBytes b → (E b).length = bs)
    (hEbytes : ∀ b, b.length = bs → allBytes b → allBytes (E b)) :
    ∀ N pt ks, pt.length ≤ N → pt.length % bs = 0 → allBytes pt →
      ks.length = bs → allBytes ks →
      ofbLoop E bs ks (ofbLoop E bs ks pt) = pt := by
  intro N
  induction N with
  | zero =>
    intro pt ks hle _ _ _ _
    have hnil : pt = [] := List.eq_nil_of_length_eq_zero (by omega)
    subst hnil
    rw [ofbLoop]
    simp
    rw [ofbLoop]
    simp
  | succ n ih =>
    intro pt ks hle hmod hbytes hkslen hksb
    by_cases hpt : pt = []
    · subst hpt
      rw [ofbLoop]
      simp
      rw [ofbLoop]
      simp
    · have hptpos : 0 < pt.length := List.length_pos.mpr hpt
      have hbsle : bs ≤ pt.length := block_le_of_mod hmod hptpos
      have hcond : ¬(bs = 0 ∨ pt = []) := by push_neg; exact ⟨by omega, hpt⟩
      have htake : (pt.take bs).length = bs := by rw [List.length_take]; omega
      have hks : (E ks).length = bs := hElen _ hkslen hksb
      have hct : (xorBytes (pt.take bs) (E ks)).length = bs := by
        rw [xorBytes_length]; omega
      have hctne : xorBytes (pt.take bs) (E ks) ≠ [] := by
        intro hh
        rw [hh] at hct
        simp at hct
        omega
      have henc : ofbLoop E bs ks pt =
          xorBytes (pt.take bs) (E ks) ++ ofbLoop E bs (E ks) (pt.drop bs) := by
        rw [ofbLoop, dif_neg hcond]
      rw [henc]
      have hcond2 : ¬(bs = 0 ∨ xorBytes (pt.take bs) (E ks) ++
          ofbLoop E bs (E ks) (pt.drop bs) = []) := by
        push_neg
        refine ⟨by omega, ?_⟩
        simp [hctne]
      rw [ofbLoop, dif_neg hcond2, List.take_left' hct, List.drop_left' hct,
        xorBytes_xorBytes (by omega),
        ih (pt.drop bs) _ (by rw [List.length_drop]; omega)
          (by rw [List.length_drop]; exact mod_sub_block hmod hbsle)
          (allBytes_drop hbytes bs) hks (hEbytes _ hkslen hksb),
        List.take_append_drop]

theorem incAux_length (l : List Nat) : (incAux l).length = l.length := by
  induction l with
  | nil => rfl
  | cons x xs ih =>
    rw [incAux]
    split
    · simp [ih]
    · simp

theorem incrementCounter_length (c : List Nat) :
    (incrementCounter c).length = c.length := by
  rw [incrementCounter, List.length_reverse, incAux_length, List.length_reverse]

theorem allBytes_incAux {l : List Nat} (h : allBytes l) : allBytes (incAux l) := by
  induction l with
  | nil => exact h
  | cons x xs ih =>
    rw [incAux]
    split
    · intro z hz
      rcases List.mem_cons.mp hz with rfl | hz
      · omega
      · exact ih (fun u hu => h u (by simp [hu])) z hz
    · intro z hz
      rcases List.mem_cons.mp hz with rfl | hz
      · exact Nat.mod_lt _ (by norm_num)
      · exact h z (by simp [hz])

theorem allBytes_reverse {l : List Nat} (h : allBytes l) : allBytes l.reverse :=
  fun x hx => h x (List.mem_reverse.mp hx)

theorem allBytes_incrementCounter {c : List Nat} (h : allBytes c) :
    allBytes (incrementCounter c) :=
  allBytes_reverse (allBytes_incAux (allBytes_reverse h))

theorem ctrLoop_roundtrip (E : List Nat → List Nat) (bs : Nat) (hbs : 0 < bs)
    (hElen : ∀ b, b.length = bs → allBytes b → (E b).length = bs)
    (hEbytes : ∀ b, b.length = bs → allBytes b → allBytes (E b)) :
    ∀ N pt counter, pt.length ≤ N → pt.length % bs = 0 → allBytes pt →
      counter.length = bs → allBytes counter →
      ctrLoop E bs counter (ctrLoop E bs counter pt) = pt := by
  intro N
  induction N with
  | zero =>
    intro pt counter hle _ _ _ _
    have hnil : pt = [] := List.eq_nil_of_length_eq_zero (by omega)
    subst hnil
    rw [ctrLoop]
    simp
    rw [ctrLoop]
    simp
  | succ n ih =>
    intro pt counter hle hmod hbytes hclen hcb
    by_cases hpt : pt = []
    · subst hpt
      rw [ctrLoop]
      simp
      rw [ctrLoop]
      simp
    · have hptpos : 0 < pt.length := List.length_pos.mpr hpt
      have hbsle : bs ≤ pt.length := block_le_of_mod hmod hptpos
      have hcond : ¬(bs = 0 ∨ pt = []) := by push_neg; exact ⟨by omega, hpt⟩
      have htake : (pt.take bs).length = bs := by rw [List.length_take]; omega
      have hks : (E counter).length = bs := hElen _ hclen hcb
      have hct : (xorBytes (pt.take bs) (E counter)).length = bs := by
        rw [xorBytes_length]; omega
      have hctne : xorBytes (pt.take bs) (E counter) ≠ [] := by
        intro hh
        rw [hh] at hct
        simp at hct
        omega
      have henc : ctrLoop E bs counter pt =
          xorBytes (pt.take bs) (E counter) ++
            ctrLoop E bs (incrementCounter counter) (pt.drop bs) := by
        rw [ctrLoop, dif_neg hcond]
      rw [henc]
      have hcond2 : ¬(bs = 0 ∨ xorBytes (pt.take bs) (E counter) ++
          ctrLoop E bs (incrementCounter counter) (pt.drop bs) = []) := by
        push_neg
        refine ⟨by omega, ?_⟩
        simp [hctne]
      rw [ctrLoop, dif_neg hcond2, List.take_left' hct, List.drop_left' hct,
        xorBytes_xorBytes (by omega),
        ih (pt.drop bs) _ (by rw [List.length_drop]; omega)
          (by rw [List.length_drop]; exact mod_sub_block hmod hbsle)
          (allBytes_drop hbytes bs)
          (by rw [incrementCounter_length]; exact hclen)
          (allBytes_incrementCounter hcb),
        List.take_append_drop]

/-- The random-delta loop inverts itself when, and only because, the delta
stream consumed while decrypting is the one consumed while encrypting. -/
theorem rdLoop_roundtrip (E : List Nat → List Nat) (bs : Nat) (hbs : 0 < bs)
    (hElen : ∀ b, b.length = bs → allBytes b → (E b).length = bs)
    (hEbytes : ∀ b, b.length = bs → allBytes b → allBytes (E b))
    (deltas : Nat → List Nat) (hdb : ∀ k, allBytes (deltas k)) :
    ∀ N pt st k, pt.length ≤ N → pt.length % bs = 0 → allBytes pt →
      st.length = bs → allBytes st → (∀ j, (deltas j).length = bs) →
      rdLoop E bs st deltas k (rdLoop E bs st deltas k pt) = pt := by
  intro N
  induction N with
  | zero =>
    intro pt st k hle _ _ _ _ _
    have hnil : pt = [] := List.eq_nil_of_length_eq_zero (by omega)
    subst hnil
    rw [rdLoop]
    simp
    rw [rdLoop]
    simp
  | succ n ih =>
    intro pt st k hle hmod hbytes hstlen hstb hdl
    by_cases hpt : pt = []
    · subst hpt
      rw [rdLoop]
      simp
      rw [rdLoop]
      simp
    · have hptpos : 0 < pt.length := List.length_pos.mpr hpt
      have hbsle : bs ≤ pt.length := block_le_of_mod hmod hptpos
      have hcond : ¬(bs = 0 ∨ pt = []) := by push_neg; exact ⟨by omega, hpt⟩
      have htake : (pt.take bs).length = bs := by rw [List.length_take]; omega
      have hks : (E st).length = bs := hElen _ hstlen hstb
      have hct : (xorBytes (pt.take bs) (E st)).length = bs := by
        rw [xorBytes_length]; omega
      have hctne : xorBytes (pt.take bs) (E st) ≠ [] := by
        intro hh
        rw [hh] at hct
        simp at hct
        omega
      have henc : rdLoop E bs st deltas k pt =
          xorBytes (pt.take bs) (E st) ++
            rdLoop E bs (xorBytes st (deltas k)) deltas (k + 1) (pt.drop bs) := by
        rw [rdLoop, dif_neg hcond]
      rw [henc]
      have hcond2 : ¬(bs = 0 ∨ xorBytes (pt.take bs) (E st) ++
          rdLoop E bs (xorBytes st (deltas k)) deltas (k + 1) (pt.drop bs) = []) := by
        push_neg
        refine ⟨by omega, ?_⟩
        simp [hctne]
      rw [rdLoop, dif_neg hcond2, List.take_left' hct, List.drop_left' hct,
        xorBytes_xorBytes (by omega),
        ih (pt.drop bs) _ (k + 1) (by rw [List.length_drop]; omega)
          (by rw [List.length_drop]; exact mod_sub_block hmod hbsle)
          (allBytes_drop hbytes bs)
          (by rw [xorBytes_length, hdl k]; omega)
          (allBytes_xorBytes hstb (hdb k)) hdl,
        List.take_append_drop]

/-- Every byte appended by `Pad` is a byte, so padding preserves
byte-validity (for ISO 10126 the random source must produce bytes). -/
theorem pad_allBytes (ps : PadScheme) (data : List Nat) (blockSize : Nat)
    (rnd : Nat → Nat) (hd : allBytes data) (hrnd : ∀ i, rnd i < 256) :
    allBytes (Pad ps data blockSize rnd) := by
  cases ps <;> intro x hx <;>
    simp only [Pad, ZeroPad, PKCS7Pad, ANSIX923Pad, ISO10126Pad, List.mem_append,
      List.mem_replicate, List.mem_singleton, List.mem_map, List.mem_range] at hx
  case zeros =>
    rcases hx with h | h
    · exact hd x h
    · omega
  case pkcs7 =>
    rcases hx with h | h
    · exact hd x h
    · have := h.2
      subst this
      exact Nat.mod_lt _ (by norm_num)
  case ansix923 =>
    rcases hx with h | (h | h)
    · exact hd x h
    · omega
    · subst h
      exact Nat.mod_lt _ (by norm_num)
  case iso10126 =>
    rcases hx with h | (⟨i, _, h⟩ | h)
    · exact hd x h
    · subst h
      exact hrnd i
    · subst h
      exact Nat.mod_lt _ (by norm_num)

/-- `big.Int.Bytes`: the minimal big-endian byte encoding of a natural
number (no leading zeros; zero encodes as the empty slice). -/
def natBytes (n : Nat) : List Nat :=
  if n = 0 then [] else natBytes (n / 256) ++ [n % 256]
termination_by n
decreasing_by exact Nat.div_lt_self (by omega) (by norm_num)

/-- `big.Int.SetBytes`: big-endian bytes to a natural number. -/
def bytesToNat (l : List Nat) : Nat := l.foldl (fun acc b => acc * 256 + b) 0

theorem bytesToNat_append (xs : List Nat) (b : Nat) :
    bytesToNat (xs ++ [b]) = bytesToNat xs * 256 + b := by
  rw [bytesToNat, List.foldl_append]
  rfl

/-- `SetBytes` undoes `Bytes`. -/
theorem bytesToNat_natBytes (n : Nat) : bytesToNat (natBytes n) = n := by
  induction n using Nat.strong_induction_on with
  | _ n ih =>
    rw [natBytes]
    split
    · simp only [bytesToNat, List.foldl_nil]
      omega
    · rw [bytesToNat_append, ih (n / 256) (Nat.div_lt_self (by omega) (by norm_num))]
      have := Nat.div_add_mod n 256
      omega

/-- `Bytes` is monotone in encoded length. -/
theorem natBytes_length_mono {x p : Nat} (h : x ≤ p) :
    (natBytes x).length ≤ (natBytes p).length := by
  induction p using Nat.strong_induction_on generalizing x with
  | _ p ih =>
    by_cases hx : x = 0
    · subst hx
      rw [natBytes]
      simp
    · have hp : ¬(p = 0) := by omega
      rw [natBytes, if_neg hx]
      conv_rhs => rw [natBytes, if_neg hp]
      rw [List.length_append, List.length_append]
      have hstep := ih (p / 256) (Nat.div_lt_self (by omega) (by norm_num))
        (Nat.div_le_div_right h)
      simp only [List.length_singleton]
      omega

/-- `Bytes` never emits a leading zero byte. -/
theorem natBytes_head_ne_zero (n : Nat) : (natBytes n).head? ≠ some 0 := by
  induction n using Nat.strong_induction_on with
  | _ n ih =>
    rw [natBytes]
    split
    · simp
    · rename_i hn
      by_cases hq : n / 256 = 0
      · have hlt : n < 256 := by omega
        rw [hq, natBytes]
        simp only [if_pos rfl, List.nil_append, List.head?_cons]
        intro hcontra
        have : n % 256 = 0 := by injection hcontra
        rw [Nat.mod_eq_of_lt hlt] at this
        exact hn this
      · have hne : natBytes (n / 256) ≠ [] := by
          rw [natBytes, if_neg hq]
          simp
        obtain ⟨y, ys, hcons⟩ := List.exists_cons_of_ne_nil hne
        have hih := ih (n / 256) (Nat.div_lt_self (by omega) (by norm_num))
        rw [hcons] at hih ⊢
        simp only [List.cons_append, List.head?_cons] at hih ⊢
        exact hih

/-- `computePublicKey` from `diffie_hellman.go`: `g^a mod p`. -/
def computePublicKey (p g a : Nat) : Nat := g ^ a % p

/-- `GetPublicKey`: the public key serialized by `big.Int.Bytes`. -/
def GetPublicKey (p g a : Nat) : List Nat := natBytes (computePublicKey p g a)

/-- `ComputeSharedSecret`: read the peer public value with `SetBytes`, raise
it to the own private key modulo `p`, serialize with `Bytes`. -/
def ComputeSharedSecret (p a : Nat) (otherPublicKeyBytes : List Nat) : List Nat :=
  natBytes (bytesToNat otherPublicKeyBytes ^ a % p)

/-- `GetPrime`: the prime serialized by `big.Int.Bytes`. -/
def GetPrime (p : Nat) : List Nat := natBytes p

/-- `GeneratePrivateKey`: `rand.Int(rand.Reader, p-2)` yields a draw `r`
with `0 ≤ r < p-2`, and the private key is `r + 2`.  The random draw is the
parameter `r`. -/
def GeneratePrivateKey (p r : Nat) : Nat := r + 2

/-- Every scheme rejects an empty `Unpad` input. -/
theorem unpad_empty (ps : PadScheme) :
    Unpad ps [] = Except.error "invalid padded data" := by
  cases ps <;> rfl

/-- The three length-byte schemes reject a zero or over-long final byte. -/
theorem unpad_rejects_bad_length (ps : PadScheme) (hps : ps ≠ PadScheme.zeros)
    (data : List Nat) (hne : data ≠ [])
    (hbad : data.getD (data.length - 1) 0 = 0 ∨
      data.getD (data.length - 1) 0 > data.length) :
    Unpad ps data = Except.error "invalid padding length" := by
  have h0 : ¬(data.length = 0) := by
    intro hh
    exact hne (List.eq_nil_of_length_eq_zero hh)
  cases ps with
  | zeros => exact absurd rfl hps
  | pkcs7 =>
    rw [Unpad, PKCS7Unpad, if_neg h0]
    rw [if_pos (Or.symm hbad)]
  | ansix923 =>
    rw [Unpad, ANSIX923Unpad, if_neg h0]
    rw [if_pos (Or.symm hbad)]
  | iso10126 =>
    rw [Unpad, ISO10126Unpad, if_neg h0]
    rw [if_pos (Or.symm hbad)]

/-- `ZEROS` unpadding accepts every nonempty input. -/
theorem zeroUnpad_accepts (data : List Nat) (hne : data ≠ []) :
    ZeroUnpad data = Except.ok ((data.reverse.dropWhile (fun x => x == 0)).reverse) := by
  rw [ZeroUnpad, if_neg (by simpa using hne)]

/-- Modelled from the spec wording of the RC6 key schedule (claim C6): the
magic-constant recurrence `S[0] = P32 = 0xB7E15163`,
`S[i] = S[i-1] + Q32` with `Q32 = 0x9E3779B9`. -/
def specSInitF : Nat → Nat
  | 0 => 0xB7E15163
  | i + 1 => add32 (specSInitF i) 0x9E3779B9

/-- Modelled from the spec wording: the initial table of `2r+4 = 44` words
for `r = 20`. -/
def specSInit : List Nat := (List.range 44).map specSInitF

/-- Modelled from the spec wording: one mixing iteration
`A = S[i] = rotl(S[i]+A+B, 3); B = L[j] = rotl(L[j]+A+B, (A+B) mod 32)`,
with `i` advancing cyclically over the `2r+4 = 44` table entries and `j`
over the `c` key words. -/
def specMixStep (c : Nat) :
    List Nat × List Nat × Nat × Nat × Nat × Nat →
    List Nat × List Nat × Nat × Nat × Nat × Nat
  | (s, L, a, b, i, j) =>
    let sv := rotl32 (add32 (add32 (s.getD i 0) a) b) 3
    let lv := rotl32 (add32 (add32 (L.getD j 0) sv) b) (add32 sv b % 32)
    (s.set i sv, L.set j lv, sv, lv, (i + 1) % 44, (j + 1) % c)

/-- Modelled from the spec wording (claim C6): the key schedule initialises
`S` by the magic-constant recurrence and then performs exactly
`3 * max(c, 2r+4)` mixing iterations, where `c` is the number of key words. -/
def specExpandKey (key : List Nat) : List Nat :=
  (((specMixStep ((key.length + 3) / 4))^[3 * max ((key.length + 3) / 4) 44])
    (specSInit, keyToL key, 0, 0, 0, 0)).1

theorem specSInitF_eq : ∀ i, specSInitF i = sInitF i
  | 0 => rfl
  | i + 1 => by rw [specSInitF, sInitF, specSInitF_eq i]

theorem specMixStep_eq : specMixStep = mixStep := rfl

/-- Claim C2 (code bug): the public-key serialization is `big.Int.Bytes`,
which is minimal big-endian and NOT left-zero-padded to the byte length of
`p`: with `p = 257`, `g = 2`, private key `4`, the public key `16` encodes
in one byte while `p` takes two. -/
theorem claim_C2_serialization_not_padded :
    GetPublicKey 257 2 4 = [16] ∧ GetPrime 257 = [1, 1] ∧
    (GetPublicKey 257 2 4).length ≠ (GetPrime 257).length := by
  have h1 : GetPublicKey 257 2 4 = [16] := by
    simp [GetPublicKey, computePublicKey, natBytes]
  have h2 : GetPrime 257 = [1, 1] := by
    simp [GetPrime, natBytes]
  exact ⟨h1, h2, by rw [h1, h2]; decide⟩

/-- Claim C2 amended direction that does hold: the minimal encoding of any
value reduced modulo `p` is never longer than the encoding of `p` itself,
and it never carries a leading zero byte. -/
theorem claim_C2_amended_minimal_encoding (p g a : Nat) (hp : 0 < p) :
    (GetPublicKey p g a).length ≤ (GetPrime p).length ∧
    (GetPublicKey p g a).head? ≠ some 0 ∧
    ∀ b : List Nat, (ComputeSharedSecret p a b).length ≤ (GetPrime p).length := by
  refine ⟨?_, natBytes_head_ne_zero _, ?_⟩
  · exact natBytes_length_mono (Nat.le_of_lt (Nat.mod_lt _ hp))
  · intro b
    exact natBytes_length_mono (Nat.le_of_lt (Nat.mod_lt _ hp))

/-- Witness for the amended C2 statement at `p = 257`, `g = 2`, `a = 4`. -/
theorem claim_C2_amended_witness :
    (GetPublicKey 257 2 4).length ≤ (GetPrime 257).length ∧
    (GetPublicKey 257 2 4).head? ≠ some 0 ∧
    ∀ b : List Nat, (ComputeSharedSecret 257 4 b).length ≤ (GetPrime 257).length :=
  claim_C2_amended_minimal_encoding 257 2 4 (by decide)

/-- Claim C3: Diffie-Hellman agreement symmetry — both parties compute the
same shared-secret byte string from the peer public value and their own
private scalar, for every prime, generator and pair of private keys. -/
theorem claim_C3_dh_symmetry (p g a b : Nat) :
    ComputeSharedSecret p a (GetPublicKey p g b) =
      ComputeSharedSecret p b (GetPublicKey p g a) := by
  rw [ComputeSharedSecret, ComputeSharedSecret, GetPublicKey, GetPublicKey,
    computePublicKey, computePublicKey, bytesToNat_natBytes, bytesToNat_natBytes]
  congr 1
  rw [← Nat.pow_mod, ← Nat.pow_mod, ← Nat.pow_mul, ← Nat.pow_mul, Nat.mul_comm]

/-- Claim C4 (code bug): `GeneratePrivateKey` draws `r` uniform in
`[0, p-2)` and returns `r + 2`, so the draw `r = p - 3` yields the private
key `p - 1`, violating the documented bound `2 ≤ a ≤ p - 2`.  Evaluated at
`p = 5`, draw `r = 2` (valid since `2 < 5 - 2`): the key is `4 > 3 = p - 2`. -/
theorem claim_C4_private_key_bound_violated :
    2 < 5 - 2 ∧ GeneratePrivateKey 5 2 = 4 ∧ ¬(GeneratePrivateKey 5 2 ≤ 5 - 2) := by
  decide

/-- Claim C6: for every valid key (16 to 32 bytes, hence `c ≤ 8` key words),
the key schedule of the source coincides with the schedule described by the
specification: magic-constant initialisation of the 44 = 2r+4 words and
`3*max(c, 2r+4)` data-dependent mixing iterations. -/
theorem claim_C6_key_schedule (key : List Nat) (h1 : 16 ≤ key.length)
    (h2 : key.length ≤ 32) : expandKey key = specExpandKey key := by
  have hc : (key.length + 3) / 4 ≤ 44 := by omega
  rw [expandKey, specExpandKey, specMixStep_eq, Nat.max_eq_right hc, specSInit,
    show specSInitF = sInitF from funext specSInitF_eq, ← sInit]

/-- Witness for C6 at the all-zero 16-byte key. -/
theorem claim_C6_witness :
    expandKey (List.replicate 16 0) = specExpandKey (List.replicate 16 0) :=
  claim_C6_key_schedule (List.replicate 16 0) (by decide) (by decide)

/-- Claim C7: `NewRC6` rejects 15- and 33-byte keys with the invalid-key-size
error and accepts every key of 16 to 32 bytes. -/
theorem claim_C7_key_size_enforcement :
    NewRC6 (List.replicate 15 0) =
      Except.error "RC6 key must be between 16 and 32 bytes" ∧
    NewRC6 (List.replicate 33 0) =
      Except.error "RC6 key must be between 16 and 32 bytes" ∧
    (∀ key : List Nat, 16 ≤ key.length → key.length ≤ 32 →
      NewRC6 key = Except.ok (RC6.mk (expandKey key) 32 20)) := by
  refine ⟨?_, ?_, ?_⟩
  · rw [NewRC6, if_pos (by decide)]
  · rw [NewRC6, if_pos (by decide)]
  · intro key h1 h2
    rw [NewRC6, if_neg (by omega)]

/-- Witness for C7 at a 16-byte key. -/
theorem claim_C7_witness :
    NewRC6 (List.replicate 16 0) =
      Except.ok (RC6.mk (expandKey (List.replicate 16 0)) 32 20) :=
  claim_C7_key_size_enforcement.2.2 (List.replicate 16 0) (by decide) (by decide)

/-- Claim C8 counterexample: `ZeroPadding.Unpad` does not interpret the last
byte as a length and rejects nothing but empty input — it accepts `[5]`
(whose last byte 5 exceeds the buffer length 1) and `[0]` (last byte zero). -/
theorem claim_C8_counterexample :
    5 > ([5] : List Nat).length ∧ ZeroUnpad [5] = Except.ok [5] ∧
    ZeroUnpad [0] = Except.ok [] := by
  decide

/-- Claim C8 amended: every scheme pads to a positive block multiple of at
most `len(data) + blockSize` and rejects empty `Unpad` input; the three
length-byte schemes (PKCS7, ANSI X.923, ISO 10126) reject a zero or
over-long final length byte; ZEROS instead accepts every nonempty input and
strips trailing zeros. -/
theorem claim_C8_padding_validity :
    (∀ (ps : PadScheme) (data : List Nat) (bs : Nat) (rnd : Nat → Nat), 0 < bs →
      (Pad ps data bs rnd).length % bs = 0 ∧ 0 < (Pad ps data bs rnd).length ∧
      (Pad ps data bs rnd).length ≤ data.length + bs) ∧
    (∀ ps, Unpad ps [] = Except.error "invalid padded data") ∧
    (∀ ps, ps ≠ PadScheme.zeros → ∀ data : List Nat, data ≠ [] →
      (data.getD (data.length - 1) 0 = 0 ∨
        data.getD (data.length - 1) 0 > data.length) →
      Unpad ps data = Except.error "invalid padding length") ∧
    (∀ data : List Nat, data ≠ [] →
      ZeroUnpad data = Except.ok ((data.reverse.dropWhile (fun x => x == 0)).reverse)) := by
  refine ⟨?_, unpad_empty, unpad_rejects_bad_length, zeroUnpad_accepts⟩
  intro ps data bs rnd hbs
  have hl := pad_length ps data bs rnd hbs
  have hm := pad_length_mod ps data bs rnd hbs
  have hp : 0 < padCount data.length bs := padCount_pos hbs
  have hle2 : padCount data.length bs ≤ bs := padCount_le hbs
  exact ⟨hm, by omega, by omega⟩

/-- Witness for the amended C8 statement at concrete inputs. -/
theorem claim_C8_witness :
    ((Pad PadScheme.pkcs7 [1, 2, 3] 16 (fun _ => 0)).length % 16 = 0 ∧
      0 < (Pad PadScheme.pkcs7 [1, 2, 3] 16 (fun _ => 0)).length ∧
      (Pad PadScheme.pkcs7 [1, 2, 3] 16 (fun _ => 0)).length ≤
        ([1, 2, 3] : List Nat).length + 16) ∧
    Unpad PadScheme.pkcs7 [0] = Except.error "invalid padding length" ∧
    ZeroUnpad [7] = Except.ok
      ((([7] : List Nat).reverse.dropWhile (fun x => x == 0)).reverse) :=
  ⟨claim_C8_padding_validity.1 PadScheme.pkcs7 [1, 2, 3] 16 (fun _ => 0) (by decide),
   claim_C8_padding_validity.2.2.1 PadScheme.pkcs7 (by decide) [0] (by decide)
     (by decide),
   claim_C8_padding_validity.2.2.2 [7] (by decide)⟩

/-- Claim C9: the mode and padder registries return the matching
implementation for each of the closed-set names and nothing (the source
returns `nil`) for every other name, including lowercase variants. -/
theorem claim_C9_name_registry :
    (∀ s : String,
      s ∉ (["ECB", "CBC", "PCBC", "CFB", "OFB", "CTR", "RANDOM_DELTA"] : List String) →
      GetMode s = none) ∧
    (∀ s : String,
      s ∉ (["ZEROS", "PKCS7", "ANSI_X923", "ISO_10126"] : List String) →
      GetPadder s = none) ∧
    GetMode "ECB" = some ModeKind.ecb ∧
    GetMode "CBC" = some ModeKind.cbc ∧
    GetMode "PCBC" = some ModeKind.pcbc ∧
    GetMode "CFB" = some ModeKind.cfb ∧
    GetMode "OFB" = some ModeKind.ofb ∧
    GetMode "CTR" = some ModeKind.ctr ∧
    GetMode "RANDOM_DELTA" = some ModeKind.randomDelta ∧
    GetPadder "ZEROS" = some PadScheme.zeros ∧
    GetPadder "PKCS7" = some PadScheme.pkcs7 ∧
    GetPadder "ANSI_X923" = some PadScheme.ansix923 ∧
    GetPadder "ISO_10126" = some PadScheme.iso10126 := by
  refine ⟨?_, ?_, by decide, by decide, by decide, by decide, by decide, by decide,
    by decide, by decide, by decide, by decide, by decide⟩
  · intro s hs
    simp only [List.mem_cons, List.not_mem_nil, or_false, not_or] at hs
    obtain ⟨h1, h2, h3, h4, h5, h6, h7⟩ := hs
    rw [GetMode, if_neg h1, if_neg h2, if_neg h3, if_neg h4, if_neg h5, if_neg h6,
      if_neg h7]
  · intro s hs
    simp only [List.mem_cons, List.not_mem_nil, or_false, not_or] at hs
    obtain ⟨h1, h2, h3, h4⟩ := hs
    rw [GetPadder, if_neg h1, if_neg h2, if_neg h3, if_neg h4]

/-- Witness for C9: lowercase variants of valid names are rejected. -/
theorem claim_C9_witness : GetMode "ecb" = none ∧ GetPadder "zeros" = none :=
  ⟨claim_C9_name_registry.1 "ecb" (by decide),
   claim_C9_name_registry.2.1 "zeros" (by decide)⟩

/-- Claim C10: the per-call `key` parameter of `RC6.Encrypt` and
`RC6.Decrypt` has no effect on the result — only the round-key schedule
stored in the instance is consulted. -/
theorem claim_C10_key_parameter_unused (c : RC6) (k1 k2 block : List Nat) :
    c.Encrypt k1 block = c.Encrypt k2 block ∧
    c.Decrypt k1 block = c.Decrypt k2 block :=
  ⟨rfl, rfl⟩

/-- Claim C5: for every cipher built by `NewRC6` from a valid key and every
16-byte block, decryption inverts encryption and encryption inverts
decryption, whatever per-call key bytes are passed. -/
theorem claim_C5_rc6_block_inverse (key : List Nat) (c : RC6)
    (k1 k2 block : List Nat) (hc : NewRC6 key = Except.ok c)
    (hlen : block.length = 16) (hb : allBytes block) :
    (c.Encrypt k1 block).bind (c.Decrypt k2) = Except.ok block ∧
    (c.Decrypt k1 block).bind (c.Encrypt k2) = Except.ok block := by
  rw [NewRC6] at hc
  split at hc
  · simp at hc
  · injection hc with h
    subst h
    constructor
    · rw [RC6.Encrypt, if_neg (by simp [RC6BlockSize, hlen])]
      show RC6.Decrypt _ k2 _ = _
      rw [RC6.Decrypt,
        if_neg (by simp [RC6BlockSize, rc6EncryptBlock_length])]
      dsimp only
      rw [rc6DecryptBlock_rc6EncryptBlock (expandKey key) 20 hlen hb]
    · rw [RC6.Decrypt, if_neg (by simp [RC6BlockSize, hlen])]
      show RC6.Encrypt _ k2 _ = _
      rw [RC6.Encrypt,
        if_neg (by simp [RC6BlockSize, rc6DecryptBlock_length])]
      dsimp only
      rw [rc6EncryptBlock_rc6DecryptBlock (expandKey key) 20 hlen hb]

/-- Witness for C5: the all-zero 16-byte key and all-zero block. -/
theorem claim_C5_witness :
    ((RC6.mk (expandKey (List.replicate 16 0)) 32 20).Encrypt []
        (List.replicate 16 0)).bind
      ((RC6.mk (expandKey (List.replicate 16 0)) 32 20).Decrypt []) =
      Except.ok (List.replicate 16 0) ∧
    ((RC6.mk (expandKey (List.replicate 16 0)) 32 20).Decrypt []
        (List.replicate 16 0)).bind
      ((RC6.mk (expandKey (List.replicate 16 0)) 32 20).Encrypt []) =
      Except.ok (List.replicate 16 0) :=
  claim_C5_rc6_block_inverse (List.replicate 16 0) _ [] [] (List.replicate 16 0)
    rfl (by decide) (by decide)

/-- Claim C1 amended: pad-encrypt-decrypt-unpad returns the message for
every inverse-pair block cipher, every mode, and every padding scheme,
except that (i) ZEROS padding requires the message to carry no trailing
zero byte, and (ii) RANDOM_DELTA requires the decrypting side to consume
the same delta stream that the encrypting side drew (the source draws a
fresh independent stream, so this only holds of runs whose draws happen to
coincide — in particular single-block messages). -/
theorem claim_C1_amended_roundtrip (m : ModeKind) (ps : PadScheme)
    (E D : List Nat → List Nat) (bs : Nat) (msg iv : List Nat) (rnd : Nat → Nat)
    (deltasE deltasD : Nat → List Nat)
    (hbs : 0 < bs) (hbs2 : bs ≤ 255)
    (hED : ∀ b, b.length = bs → allBytes b → D (E b) = b)
    (hElen : ∀ b, b.length = bs → allBytes b → (E b).length = bs)
    (hEbytes : ∀ b, b.length = bs → allBytes b → allBytes (E b))
    (hiv : iv.length = bs) (hivb : allBytes iv) (hmsg : allBytes msg)
    (hrnd : ∀ i, rnd i < 256)
    (hdlen : ∀ k, (deltasE k).length = bs) (hdb : ∀ k, allBytes (deltasE k))
    (hzeros : ps = PadScheme.zeros →
      (msg.reverse.dropWhile (fun x => x == 0)).reverse = msg)
    (hrdelta : m = ModeKind.randomDelta → deltasD = deltasE) :
    ∃ ct pt2, ModeEncrypt m E bs (Pad ps msg bs rnd) iv deltasE = Except.ok ct ∧
      ModeDecrypt m E D bs ct iv deltasD = Except.ok pt2 ∧
      Unpad ps pt2 = Except.ok msg := by
  have hpadmod : (Pad ps msg bs rnd).length % bs = 0 := pad_length_mod ps msg bs rnd hbs
  have hpadb : allBytes (Pad ps msg bs rnd) := pad_allBytes ps msg bs rnd hmsg hrnd
  have hunpad : Unpad ps (Pad ps msg bs rnd) = Except.ok msg := by
    cases ps with
    | zeros =>
      show ZeroUnpad (ZeroPad msg bs) = Except.ok msg
      rw [ZeroUnpad_ZeroPad msg hbs, hzeros rfl]
    | pkcs7 => exact PKCS7Unpad_PKCS7Pad msg hbs hbs2
    | ansix923 => exact ANSIX923Unpad_ANSIX923Pad msg hbs hbs2
    | iso10126 => exact ISO10126Unpad_ISO10126Pad msg rnd hbs hbs2
  cases m with
  | ecb =>
    refine ⟨ecbLoop E bs (Pad ps msg bs rnd), Pad ps msg bs rnd, ?_, ?_, hunpad⟩
    · show ECBEncrypt E bs (Pad ps msg bs rnd) = _
      rw [ECBEncrypt, if_neg (by simp [hpadmod])]
    · show ECBDecrypt D bs (ecbLoop E bs (Pad ps msg bs rnd)) = _
      have hctlen : (ecbLoop E bs (Pad ps msg bs rnd)).length =
          (Pad ps msg bs rnd).length :=
        ecbLoop_length E bs hbs hElen (Pad ps msg bs rnd).length _
          (Nat.le_refl _) hpadmod hpadb
      rw [ECBDecrypt, if_neg (by simp [hctlen, hpadmod]),
        ecbLoop_roundtrip E D bs hbs hED hElen (Pad ps msg bs rnd).length _
          (Nat.le_refl _) hpadmod hpadb]
  | cbc =>
    refine ⟨cbcEncLoop E bs iv (Pad ps msg bs rnd), Pad ps msg bs rnd, ?_, ?_, hunpad⟩
    · show CBCEncrypt E bs (Pad ps msg bs rnd) iv = _
      rw [CBCEncrypt, if_neg (by omega), if_neg (by simp [hpadmod])]
    · show CBCDecrypt D bs (cbcEncLoop E bs iv (Pad ps msg bs rnd)) iv = _
      have hctlen : (cbcEncLoop E bs iv (Pad ps msg bs rnd)).length =
          (Pad ps msg bs rnd).length :=
        cbcEncLoop_length E bs hbs hElen hEbytes (Pad ps msg bs rnd).length _ iv
          (Nat.le_refl _) hpadmod hpadb hiv hivb
      rw [CBCDecrypt, if_neg (by omega), if_neg (by simp [hctlen, hpadmod]),
        cbcLoop_roundtrip E D bs hbs hED hElen hEbytes (Pad ps msg bs rnd).length _
          iv (Nat.le_refl _) hpadmod hpadb hiv hivb]
  | pcbc =>
    refine ⟨pcbcEncLoop E bs iv (Pad ps msg bs rnd), Pad ps msg bs rnd, ?_, ?_, hunpad⟩
    · show PCBCEncrypt E bs (Pad ps msg bs rnd) iv = _
      rw [PCBCEncrypt, if_neg (by omega), if_neg (by simp [hpadmod])]
    · show PCBCDecrypt D bs (pcbcEncLoop E bs iv (Pad ps msg bs rnd)) iv = _
      have hctlen : (pcbcEncLoop E bs iv (Pad ps msg bs rnd)).length =
          (Pad ps msg bs rnd).length :=
        pcbcEncLoop_length E bs hbs hElen hEbytes (Pad ps msg bs rnd).length _ iv
          (Nat.le_refl _) hpadmod hpadb hiv hivb
      rw [PCBCDecrypt, if_neg (by omega), if_neg (by simp [hctlen, hpadmod]),
        pcbcLoop_roundtrip E D bs hbs hED hElen hEbytes (Pad ps msg bs rnd).length _
          iv (Nat.le_refl _) hpadmod hpadb hiv hivb]
  | cfb =>
    refine ⟨cfbEncLoop E bs iv (Pad ps msg bs rnd), Pad ps msg bs rnd, ?_, ?_, hunpad⟩
    · show CFBEncrypt E bs (Pad ps msg bs rnd) iv = _
      rw [CFBEncrypt, if_neg (by omega)]
    · show CFBDecrypt E bs (cfbEncLoop E bs iv (Pad ps msg bs rnd)) iv = _
      rw [CFBDecrypt, if_neg (by omega),
        cfbLoop_roundtrip E bs hbs hElen hEbytes (Pad ps msg bs rnd).length _ iv
          (Nat.le_refl _) hpadmod hpadb hiv hivb]
  | ofb =>
    refine ⟨ofbLoop E bs iv (Pad ps msg bs rnd), Pad ps msg bs rnd, ?_, ?_, hunpad⟩
    · show OFBEncrypt E bs (Pad ps msg bs rnd) iv = _
      rw [OFBEncrypt, if_neg (by omega)]
    · show OFBDecrypt E bs (ofbLoop E bs iv (Pad ps msg bs rnd)) iv = _
      rw [OFBDecrypt, OFBEncrypt, if_neg (by omega),
        ofbLoop_roundtrip E bs hbs hElen hEbytes (Pad ps msg bs rnd).length _ iv
          (Nat.le_refl _) hpadmod hpadb hiv hivb]
  | ctr =>
    refine ⟨ctrLoop E bs iv (Pad ps msg bs rnd), Pad ps msg bs rnd, ?_, ?_, hunpad⟩
    · show CTREncrypt E bs (Pad ps msg bs rnd) iv = _
      rw [CTREncrypt, if_neg (by omega)]
    · show CTRDecrypt E bs (ctrLoop E bs iv (Pad ps msg bs rnd)) iv = _
      rw [CTRDecrypt, CTREncrypt, if_neg (by omega),
        ctrLoop_roundtrip E bs hbs hElen hEbytes (Pad ps msg bs rnd).length _ iv
          (Nat.le_refl _) hpadmod hpadb hiv hivb]
  | randomDelta =>
    have hd : deltasD = deltasE := hrdelta rfl
    subst hd
    refine ⟨rdLoop E bs iv deltasD 0 (Pad ps msg bs rnd), Pad ps msg bs rnd,
      ?_, ?_, hunpad⟩
    · show RDEncrypt E bs (Pad ps msg bs rnd) iv deltasD = _
      rw [RDEncrypt, if_neg (by omega)]
    · show RDDecrypt E bs (rdLoop E bs iv deltasD 0 (Pad ps msg bs rnd)) iv
        deltasD = _
      rw [RDDecrypt, if_neg (by omega),
        rdLoop_roundtrip E bs hbs hElen hEbytes deltasD hdb
          (Pad ps msg bs rnd).length _ iv 0 (Nat.le_refl _) hpadmod hpadb hiv hivb
          hdlen]

/-- Witness for the amended C1 statement: RC6 with the all-zero 16-byte key,
CBC mode, PKCS7 padding, message `[1, 2, 3]`, all-zero IV. -/
theorem claim_C1_witness :
    ∃ ct pt2,
      ModeEncrypt ModeKind.cbc (rc6EncryptBlock (expandKey (List.replicate 16 0)) 20)
        16 (Pad PadScheme.pkcs7 [1, 2, 3] 16 (fun _ => 0)) (List.replicate 16 0)
        (fun _ => List.replicate 16 0) = Except.ok ct ∧
      ModeDecrypt ModeKind.cbc (rc6EncryptBlock (expandKey (List.replicate 16 0)) 20)
        (rc6DecryptBlock (expandKey (List.replicate 16 0)) 20) 16 ct
        (List.replicate 16 0) (fun _ => List.replicate 16 0) = Except.ok pt2 ∧
      Unpad PadScheme.pkcs7 pt2 = Except.ok [1, 2, 3] :=
  claim_C1_amended_roundtrip ModeKind.cbc PadScheme.pkcs7
    (rc6EncryptBlock (expandKey (List.replicate 16 0)) 20)
    (rc6DecryptBlock (expandKey (List.replicate 16 0)) 20)
    16 [1, 2, 3] (List.replicate 16 0) (fun _ => 0)
    (fun _ => List.replicate 16 0) (fun _ => List.replicate 16 0)
    (by decide) (by decide)
    (fun b hl hb =>
      rc6DecryptBlock_rc6EncryptBlock (expandKey (List.replicate 16 0)) 20 hl hb)
    (fun b hl hb => rc6EncryptBlock_length (expandKey (List.replicate 16 0)) 20 b)
    (fun b hl hb => rc6EncryptBlock_allBytes (expandKey (List.replicate 16 0)) 20 b)
    (by decide) (by decide) (by decide)
    (fun i => (by decide : (0 : Nat) < 256))
    (fun k => (by decide : (List.replicate 16 0 : List Nat).length = 16))
    (fun k => (by decide : allBytes (List.replicate 16 0)))
    (fun h => absurd h (by decide))
    (fun h => rfl)

theorem except_bind_ok {α β : Type} (v : α) (f : α → Except String β) :
    (Except.ok v).bind f = f v := rfl

set_option maxRecDepth 4000 in
/-- Claim C1 counterexample: the round trip fails as stated on the source.
First instance: RC6 (all-zero 16-byte key), ECB mode, ZEROS padding, the
one-byte message `[0]` — unpadding strips the message byte together with
the padding, returning `[]`.  Second instance: RC6, RANDOM_DELTA mode,
PKCS7 padding, the one-block message of sixteen `1` bytes — the decrypting
side draws its own random deltas (here `[1,0,...,0]` against the
encrypting side's all-zero draws), so the second block decrypts to garbage
and unpadding cannot return the message. -/
theorem claim_C1_counterexample :
    ((ModeEncrypt ModeKind.ecb
        (rc6EncryptBlock (expandKey (List.replicate 16 0)) 20) 16
        (Pad PadScheme.zeros [0] 16 (fun _ => 0)) (List.replicate 16 0)
        (fun _ => List.replicate 16 0)).bind (fun ct =>
      (ModeDecrypt ModeKind.ecb
          (rc6EncryptBlock (expandKey (List.replicate 16 0)) 20)
          (rc6DecryptBlock (expandKey (List.replicate 16 0)) 20) 16 ct
          (List.replicate 16 0) (fun _ => List.replicate 16 0)).bind
        (fun pt2 => Unpad PadScheme.zeros pt2))) ≠ Except.ok [0] ∧
    ((ModeEncrypt ModeKind.randomDelta
        (rc6EncryptBlock (expandKey (List.replicate 16 0)) 20) 16
        (Pad PadScheme.pkcs7 (List.replicate 16 1) 16 (fun _ => 0))
        (List.replicate 16 0) (fun _ => List.replicate 16 0)).bind (fun ct =>
      (ModeDecrypt ModeKind.randomDelta
          (rc6EncryptBlock (expandKey (List.replicate 16 0)) 20)
          (rc6DecryptBlock (expandKey (List.replicate 16 0)) 20) 16 ct
          (List.replicate 16 0) (fun _ => 1 :: List.replicate 15 0)).bind
        (fun pt2 => Unpad PadScheme.pkcs7 pt2))) ≠
      Except.ok (List.replicate 16 1) := by
  constructor
  · have hpad : Pad PadScheme.zeros [0] 16 (fun _ => 0) = List.replicate 16 0 := by
      decide
    have hElen := fun (b : List Nat) (_ : b.length = 16) (_ : allBytes b) =>
      rc6EncryptBlock_length (expandKey (List.replicate 16 0)) 20 b
    have hrt : ecbLoop (rc6DecryptBlock (expandKey (List.replicate 16 0)) 20) 16
        (ecbLoop (rc6EncryptBlock (expandKey (List.replicate 16 0)) 20) 16
          (List.replicate 16 0)) = List.replicate 16 0 :=
      ecbLoop_roundtrip _ _ 16 (by norm_num)
        (fun b hl hb =>
          rc6DecryptBlock_rc6EncryptBlock (expandKey (List.replicate 16 0)) 20 hl hb)
        hElen 16 (List.replicate 16 0) (by decide) (by decide) (by decide)
    have hctlen : (ecbLoop (rc6EncryptBlock (expandKey (List.replicate 16 0)) 20) 16
        (List.replicate 16 0)).length = (List.replicate 16 0 : List Nat).length :=
      ecbLoop_length _ 16 (by norm_num) hElen 16 (List.replicate 16 0) (by decide)
        (by decide) (by decide)
    show (ECBEncrypt _ 16 (Pad PadScheme.zeros [0] 16 (fun _ => 0))).bind _ ≠ _
    rw [hpad, ECBEncrypt, if_neg (by decide), except_bind_ok]
    show (ECBDecrypt _ 16 _).bind _ ≠ _
    rw [ECBDecrypt, if_neg (by rw [hctlen]; decide), except_bind_ok, hrt]
    decide
  · have hpad2 : Pad PadScheme.pkcs7 (List.replicate 16 1) 16 (fun _ => 0) =
        [1, 1, 1, 1, 1, 1, 1, 1, 1, 1, 1, 1, 1, 1, 1, 1,
         16, 16, 16, 16, 16, 16, 16, 16, 16, 16, 16, 16, 16, 16, 16, 16] := by
      decide
    have hct : rdLoop (rc6EncryptBlock (expandKey (List.replicate 16 0)) 20) 16
        (List.replicate 16 0) (fun _ => List.replicate 16 0) 0
        [1, 1, 1, 1, 1, 1, 1, 1, 1, 1, 1, 1, 1, 1, 1, 1,
         16, 16, 16, 16, 16, 16, 16, 16, 16, 16, 16, 16, 16, 16, 16, 16] =
        [142, 194, 164, 55, 87, 176, 246, 121, 192, 40, 222, 79, 153, 73, 165, 31,
         159, 211, 181, 38, 70, 161, 231, 104, 209, 57, 207, 94, 136, 88, 180, 14] := by
      simp [rdLoop]
      decide
    have hpt : Unpad PadScheme.pkcs7
        (rdLoop (rc6EncryptBlock (expandKey (List.replicate 16 0)) 20) 16
          (List.replicate 16 0) (fun _ => 1 :: List.replicate 15 0) 0
          [142, 194, 164, 55, 87, 176, 246, 121, 192, 40, 222, 79, 153, 73, 165, 31,
           159, 211, 181, 38, 70, 161, 231, 104, 209, 57, 207, 94, 136, 88, 180, 14]) ≠
        Except.ok (List.replicate 16 1) := by
      simp [rdLoop]
      decide
    show (RDEncrypt _ 16 (Pad PadScheme.pkcs7 (List.replicate 16 1) 16 (fun _ => 0))
      _ _).bind _ ≠ _
    rw [hpad2, RDEncrypt, if_neg (by decide), except_bind_ok, hct]
    show (RDDecrypt _ 16 _ _ _).bind _ ≠ _
    rw [RDDecrypt, if_neg (by decide), except_bind_ok]
    exact hpt

end MinMsgr
